import Mathlib

/-!
Verification of the gtree repository core: hierarchical reconstruction and
rendering of a repository listing (src/utils/buildTree.ts), the TTL cache and
token-bucket rate limiter and the request pipeline (the Elysia server source),
modelled by a shallow embedding.

Strings are modelled as `List Char` (JS strings are sequences of code units;
we keep code points and encode to UTF-16 where the code compares strings).
Times are integers (milliseconds, as produced by Date.now()); token counts
are rationals (JS numbers, used here only with exact arithmetic).
-/

set_option linter.unusedVariables false

/-- JS strings, modelled as lists of characters. -/
abbrev Str := List Char

/-- Convert a Lean string literal to the model type. -/
def strOf (s : String) : Str := s.data

/-- `p.split("/")` for a single-character separator, as in JS:
`"".split("/") = [""]`, `"a/".split("/") = ["a", ""]`. -/
def splitOnSlash : Str → List Str
  | [] => [[]]
  | c :: rest =>
    if c = '/' then [] :: splitOnSlash rest
    else
      match splitOnSlash rest with
      | [] => [[c]]
      | s :: ss => (c :: s) :: ss

theorem splitOnSlash_ne_nil (s : Str) : splitOnSlash s ≠ [] := by
  induction s with
  | nil => simp [splitOnSlash]
  | cons c rest ih =>
    simp only [splitOnSlash]
    split
    · simp
    · split
      · simp
      · simp

/-- Every part produced by `splitOnSlash` is free of the separator. -/
theorem splitOnSlash_no_slash (s : Str) :
    ∀ part ∈ splitOnSlash s, '/' ∉ part := by
  induction s with
  | nil =>
    intro part hp
    simp [splitOnSlash] at hp
    simp [hp]
  | cons c rest ih =>
    intro part hp
    rcases hsp : splitOnSlash rest with _ | ⟨s0, ss⟩
    · exact absurd hsp (splitOnSlash_ne_nil rest)
    · by_cases hc : c = '/'
      · simp [splitOnSlash, hc, hsp] at hp
        rcases hp with h | h | h
        · simp [h]
        · exact ih part (by simp [hsp, h])
        · exact ih part (by simp [hsp, h])
      · simp [splitOnSlash, hc, hsp] at hp
        rcases hp with h | h
        · subst h
          intro hmem
          rcases List.mem_cons.mp hmem with h1 | h1
          · exact hc h1.symm
          · exact ih s0 (by simp [hsp]) h1
        · exact ih part (by simp [hsp, h])

/-- Joining `splitOnSlash` parts with the separator recovers the string. -/
theorem splitOnSlash_join (s : Str) :
    List.flatten (List.intersperse ['/'] (splitOnSlash s)) = s := by
  induction s with
  | nil => simp [splitOnSlash]
  | cons c rest ih =>
    rcases hsp : splitOnSlash rest with _ | ⟨s0, ss⟩
    · exact absurd hsp (splitOnSlash_ne_nil rest)
    · rw [hsp] at ih
      by_cases hc : c = '/'
      · subst hc
        simp [splitOnSlash, hsp, List.intersperse] at ih ⊢
        simpa using ih
      · cases ss with
        | nil =>
          simp [splitOnSlash, hc, hsp, List.intersperse] at ih ⊢
          exact ih
        | cons t ts =>
          simp [splitOnSlash, hc, hsp, List.intersperse] at ih ⊢
          exact ih

/-! ### The string order used by JS `Array.prototype.sort`

With no comparator, JS sorts strings by lexicographic comparison of their
UTF-16 code unit sequences. -/

/-- UTF-16 code units of one code point. -/
def utf16units (c : Char) : List Nat :=
  if c.toNat < 0x10000 then [c.toNat]
  else [0xD800 + (c.toNat - 0x10000) / 0x400, 0xDC00 + (c.toNat - 0x10000) % 0x400]

/-- UTF-16 code units of a string. -/
def encUtf16 (s : Str) : List Nat := s.flatMap utf16units

/-- Lexicographic less-or-equal on code unit sequences. -/
def lexLeB : List Nat → List Nat → Bool
  | [], _ => true
  | _ :: _, [] => false
  | a :: as, b :: bs => if a < b then true else if b < a then false else lexLeB as bs

/-- The JS string order: lexicographic on UTF-16 code units. -/
def jsLe (a b : Str) : Prop := lexLeB (encUtf16 a) (encUtf16 b) = true

instance : DecidableRel jsLe := fun a b => by
  unfold jsLe; infer_instance

theorem lexLeB_total (a b : List Nat) : lexLeB a b = true ∨ lexLeB b a = true := by
  induction a generalizing b with
  | nil => left; rfl
  | cons x as ih =>
    cases b with
    | nil => right; rfl
    | cons y bs =>
      rcases Nat.lt_trichotomy x y with h | h | h
      · left; simp [lexLeB, h]
      · subst h
        rcases ih bs with h2 | h2
        · left; simp [lexLeB, h2]
        · right; simp [lexLeB, h2]
      · right; simp [lexLeB, h]

theorem lexLeB_trans {a b c : List Nat} (h1 : lexLeB a b = true)
    (h2 : lexLeB b c = true) : lexLeB a c = true := by
  induction a generalizing b c with
  | nil => rfl
  | cons x as ih =>
    cases b with
    | nil => simp [lexLeB] at h1
    | cons y bs =>
      cases c with
      | nil => simp [lexLeB] at h2
      | cons z cs =>
        simp only [lexLeB] at h1 h2 ⊢
        rcases Nat.lt_trichotomy x y with hxy | hxy | hxy
        · rcases Nat.lt_trichotomy y z with hyz | hyz | hyz
          · simp [Nat.lt_trans hxy hyz]
          · subst hyz; simp [hxy]
          · simp [hyz, Nat.not_lt.mpr (Nat.le_of_lt hyz)] at h2
        · subst hxy
          rcases Nat.lt_trichotomy x z with hyz | hyz | hyz
          · simp [hyz]
          · subst hyz
            simp [Nat.lt_irrefl] at h1 h2 ⊢
            exact ih h1 h2
          · simp [hyz, Nat.not_lt.mpr (Nat.le_of_lt hyz)] at h2
        · simp [hxy, Nat.not_lt.mpr (Nat.le_of_lt hxy)] at h1

theorem lexLeB_antisymm {a b : List Nat} (h1 : lexLeB a b = true)
    (h2 : lexLeB b a = true) : a = b := by
  induction a generalizing b with
  | nil =>
    cases b with
    | nil => rfl
    | cons y bs => simp [lexLeB] at h2
  | cons x as ih =>
    cases b with
    | nil => simp [lexLeB] at h1
    | cons y bs =>
      simp only [lexLeB] at h1 h2
      rcases Nat.lt_trichotomy x y with hxy | hxy | hxy
      · simp [hxy, Nat.not_lt.mpr (Nat.le_of_lt hxy)] at h2
      · subst hxy
        simp [Nat.lt_irrefl] at h1 h2
        rw [ih h1 h2]
      · simp [hxy, Nat.not_lt.mpr (Nat.le_of_lt hxy)] at h1

instance : IsTotal Str jsLe := ⟨fun a b => lexLeB_total _ _⟩

instance : IsTrans Str jsLe := ⟨fun _ _ _ h1 h2 => lexLeB_trans h1 h2⟩

theorem char_toNat_inj {c d : Char} (h : c.toNat = d.toNat) : c = d := by
  apply Char.ext
  exact UInt32.toNat.inj h

theorem char_valid_nat (c : Char) :
    c.toNat < 0xD800 ∨ (0xDFFF < c.toNat ∧ c.toNat < 0x110000) := by
  have h := c.valid
  unfold UInt32.isValidChar at h
  unfold Nat.isValidChar at h
  rcases h with h | h
  · left; exact h
  · right; exact h

/-- A BMP scalar value is never equal to a high-surrogate unit. -/
theorem bmp_ne_surrogate {c d : Char} (h1 : c.toNat < 0x10000)
    (h2 : ¬ d.toNat < 0x10000) (h : c.toNat = 0xD800 + (d.toNat - 0x10000) / 0x400) :
    False := by
  have hq : (d.toNat - 0x10000) / 0x400 < 0x400 := by
    have hlt : d.toNat < 0x110000 := by
      rcases char_valid_nat d with h3 | h3
      · omega
      · exact h3.2
    have : d.toNat - 0x10000 < 0x100000 := by omega
    omega
  rcases char_valid_nat c with h3 | h3 <;> omega

theorem utf16units_append_inj {c d : Char} {r s : List Nat}
    (h : utf16units c ++ r = utf16units d ++ s) : c = d ∧ r = s := by
  unfold utf16units at h
  by_cases h1 : c.toNat < 0x10000
  · by_cases h2 : d.toNat < 0x10000
    · simp [h1, h2] at h
      exact ⟨char_toNat_inj h.1, h.2⟩
    · simp [h1, h2] at h
      exact absurd h.1 (fun hh => bmp_ne_surrogate h1 h2 hh)
  · by_cases h2 : d.toNat < 0x10000
    · simp [h1, h2] at h
      exact absurd h.1.symm (fun hh => bmp_ne_surrogate h2 h1 hh)
    · simp [h1, h2] at h
      obtain ⟨hq, hr, hrs⟩ := h
      refine ⟨char_toNat_inj ?_, hrs⟩
      have e1 := Nat.div_add_mod (c.toNat - 0x10000) 0x400
      have e2 := Nat.div_add_mod (d.toNat - 0x10000) 0x400
      omega

theorem utf16units_ne_nil (c : Char) : utf16units c ≠ [] := by
  unfold utf16units
  split <;> simp

theorem encUtf16_inj {a b : Str} (h : encUtf16 a = encUtf16 b) : a = b := by
  induction a generalizing b with
  | nil =>
    cases b with
    | nil => rfl
    | cons d bs =>
      exfalso
      simp only [encUtf16, List.flatMap_nil, List.flatMap_cons] at h
      rcases hu : utf16units d with _ | ⟨u, us⟩
      · exact utf16units_ne_nil d hu
      · rw [hu] at h; simp at h
  | cons c as ih =>
    cases b with
    | nil =>
      exfalso
      simp only [encUtf16, List.flatMap_nil, List.flatMap_cons] at h
      rcases hu : utf16units c with _ | ⟨u, us⟩
      · exact utf16units_ne_nil c hu
      · rw [hu] at h; simp at h
    | cons d bs =>
      simp only [encUtf16, List.flatMap_cons] at h
      obtain ⟨hcd, hrest⟩ := utf16units_append_inj h
      exact hcd ▸ congrArg (c :: ·) (ih hrest)

instance : IsAntisymm Str jsLe :=
  ⟨fun _ _ h1 h2 => encUtf16_inj (lexLeB_antisymm h1 h2)⟩

/-- `children.sort()`: JS default sort on an array of strings produces the
unique ordering of its elements ascending by UTF-16 code unit comparison. -/
def sortJS (l : List Str) : List Str := List.insertionSort jsLe l

theorem sortJS_sorted (l : List Str) : List.Sorted jsLe (sortJS l) :=
  List.sorted_insertionSort jsLe l

theorem sortJS_perm (l : List Str) : List.Perm (sortJS l) l :=
  List.perm_insertionSort jsLe l

/-- Two lists with the same elements, each without duplicates, sort equal. -/
theorem sortJS_eq_of_same_mem {l1 l2 : List Str} (h1 : l1.Nodup) (h2 : l2.Nodup)
    (hm : ∀ c, c ∈ l1 ↔ c ∈ l2) : sortJS l1 = sortJS l2 := by
  have hp : List.Perm l1 l2 := (List.perm_ext_iff_of_nodup h1 h2).mpr hm
  exact List.eq_of_perm_of_sorted
    ((sortJS_perm l1).trans (hp.trans (sortJS_perm l2).symm))
    (sortJS_sorted l1) (sortJS_sorted l2)

/-! ### Association lists modelling JS `Map`

`Map.set` updates an existing key in place or appends a new binding at the
end; `Map.delete` removes the binding. -/

def alookup {α : Type} : List (Str × α) → Str → Option α
  | [], _ => none
  | (k, v) :: rest, key => if k = key then some v else alookup rest key

def aset {α : Type} : List (Str × α) → Str → α → List (Str × α)
  | [], key, v => [(key, v)]
  | (k, w) :: rest, key, v =>
    if k = key then (k, v) :: rest else (k, w) :: aset rest key v

def aerase {α : Type} : List (Str × α) → Str → List (Str × α)
  | [], _ => []
  | (k, w) :: rest, key => if k = key then rest else (k, w) :: aerase rest key

theorem alookup_aset_self {α : Type} (m : List (Str × α)) (key : Str) (v : α) :
    alookup (aset m key v) key = some v := by
  induction m with
  | nil => simp [aset, alookup]
  | cons kv rest ih =>
    obtain ⟨k, w⟩ := kv
    by_cases hk : k = key
    · simp [aset, hk, alookup]
    · simp [aset, hk, alookup, ih]

theorem alookup_aset_ne {α : Type} (m : List (Str × α)) (key q : Str) (v : α)
    (hne : q ≠ key) : alookup (aset m key v) q = alookup m q := by
  have hne2 : ¬ key = q := fun h => hne h.symm
  induction m with
  | nil => simp [aset, alookup, hne2]
  | cons kv rest ih =>
    obtain ⟨k, w⟩ := kv
    by_cases hk : k = key
    · subst hk
      simp [aset, alookup, hne2]
    · by_cases hq : k = q <;> simp [aset, hk, alookup, hq, ih, hne, hne2]

/-! ### The TTL cache (getCache / setCache in the server source) -/

structure CacheEntry where
  value : Str
  expires : Int
deriving DecidableEq

abbrev CacheMap := List (Str × CacheEntry)

def TREE_CACHE_TTL_MS : Int := 60000

/-- `getCache`: return the stored value unless the entry is missing or
`Date.now() > entry.expires`; an expired entry is deleted as a side effect.
Returns the value (if any) together with the resulting cache map. -/
def getCache (cache : CacheMap) (key : Str) (now : Int) : Option Str × CacheMap :=
  match alookup cache key with
  | none => (none, cache)
  | some entry =>
    if now > entry.expires then (none, aerase cache key)
    else (some entry.value, cache)

/-- `setCache`: store the value with expiry `Date.now() + TREE_CACHE_TTL_MS`. -/
def setCache (cache : CacheMap) (key value : Str) (now : Int) : CacheMap :=
  aset cache key ⟨value, now + TREE_CACHE_TTL_MS⟩

/-! ### The token bucket rate limiter (takeToken in the server source) -/

structure Bucket where
  tokens : ℚ
  last : ℚ
deriving DecidableEq

def RATE_CAPACITY : ℚ := 50

def REFILL_RATE : ℚ := 100 / 60

structure TakeResult where
  allowed : Bool
  remaining : Int
  bucket : Bucket
deriving DecidableEq

/-- The refill phase of `takeToken`: add `elapsedSec * rate` tokens capped at
`cap` and move the refill timestamp to `now`, provided some time elapsed. -/
def refillBucket (cap rate : ℚ) (b : Bucket) (now : ℚ) : Bucket :=
  if (now - b.last) / 1000 > 0 then
    ⟨min cap (b.tokens + (now - b.last) / 1000 * rate), now⟩
  else b

/-- One `takeToken` call on one identity's bucket slot (`none` = identity not
seen before; the code then creates `{ tokens: capacity, last: now }`). -/
def takeTokenWith (cap rate : ℚ) (b0 : Option Bucket) (now : ℚ) : TakeResult :=
  let b := b0.getD ⟨cap, now⟩
  let b := refillBucket cap rate b now
  if b.tokens ≥ 1 then ⟨true, ⌊b.tokens - 1⌋, ⟨b.tokens - 1, b.last⟩⟩
  else ⟨false, ⌊b.tokens⌋, b⟩

abbrev Buckets := List (Str × Bucket)

/-- `takeToken(ip)` of the server source, with the configured constants. -/
def takeToken (buckets : Buckets) (ip : Str) (now : ℚ) : TakeResult × Buckets :=
  let res := takeTokenWith RATE_CAPACITY REFILL_RATE (alookup buckets ip) now
  (res, aset buckets ip res.bucket)

/-- Bucket states observed after each call of a call sequence on one identity. -/
def bucketTrace (cap rate : ℚ) (b0 : Option Bucket) : List ℚ → List Bucket
  | [] => []
  | t :: ts =>
    let r := takeTokenWith cap rate b0 t
    r.bucket :: bucketTrace cap rate (some r.bucket) ts

/-- Admission decisions observed over a call sequence on one identity. -/
def allowedTrace (cap rate : ℚ) (b0 : Option Bucket) : List ℚ → List Bool
  | [] => []
  | t :: ts =>
    let r := takeTokenWith cap rate b0 t
    r.allowed :: allowedTrace cap rate (some r.bucket) ts

/-- C2 (counterexample). The claim states that a query at time ≥ T+ttl finds
the entry absent. The code only evicts when `now > expires`: at exactly
`T + ttl` the stored value is still returned. -/
theorem getCache_at_exact_expiry_returns_value :
    (0 : Int) + TREE_CACHE_TTL_MS ≤ 60000 ∧
    (getCache (setCache [] (strOf "k") (strOf "v") 0) (strOf "k") 60000).1 =
      some (strOf "v") := by
  constructor
  · decide
  · rfl

/-- C2 (amended). A value set at time T is returned by `get` for every query
at time ≤ T+ttl; for every query at time strictly greater than T+ttl the
result is absent and the entry is deleted as a side effect of the lookup. -/
theorem cache_ttl_window (cache : CacheMap) (key value : Str) (T now : Int) :
    (now ≤ T + TREE_CACHE_TTL_MS →
      getCache (setCache cache key value T) key now =
        (some value, setCache cache key value T)) ∧
    (T + TREE_CACHE_TTL_MS < now →
      getCache (setCache cache key value T) key now =
        (none, aerase (setCache cache key value T) key)) := by
  have hl := alookup_aset_self cache key (⟨value, T + TREE_CACHE_TTL_MS⟩ : CacheEntry)
  constructor
  · intro h
    simp [getCache, setCache, hl, not_lt.mpr h]
  · intro h
    simp [getCache, setCache, hl, h]

/-- C2 (witness): the amended theorem applied at a concrete input. -/
theorem cache_ttl_window_witness :
    getCache (setCache [] (strOf "k") (strOf "v") 0) (strOf "k") 59999 =
      (some (strOf "v"), setCache [] (strOf "k") (strOf "v") 0) :=
  (cache_ttl_window [] (strOf "k") (strOf "v") 0 59999).1 (by decide)

theorem refillBucket_bounds (cap rate : ℚ) (b : Bucket) (now : ℚ)
    (hcap : 0 ≤ cap) (hrate : 0 ≤ rate) (h0 : 0 ≤ b.tokens) (h1 : b.tokens ≤ cap) :
    0 ≤ (refillBucket cap rate b now).tokens ∧
      (refillBucket cap rate b now).tokens ≤ cap := by
  unfold refillBucket
  split
  · rename_i h
    refine ⟨le_min hcap ?_, min_le_left _ _⟩
    have : 0 ≤ (now - b.last) / 1000 * rate := mul_nonneg (le_of_lt h) hrate
    linarith
  · exact ⟨h0, h1⟩

theorem takeTokenWith_bounds (cap rate : ℚ) (b0 : Option Bucket) (now : ℚ)
    (hcap : 0 ≤ cap) (hrate : 0 ≤ rate)
    (hb : ∀ b, b0 = some b → 0 ≤ b.tokens ∧ b.tokens ≤ cap) :
    0 ≤ (takeTokenWith cap rate b0 now).bucket.tokens ∧
      (takeTokenWith cap rate b0 now).bucket.tokens ≤ cap := by
  have hstart : 0 ≤ (b0.getD ⟨cap, now⟩).tokens ∧ (b0.getD ⟨cap, now⟩).tokens ≤ cap := by
    cases b0 with
    | none => exact ⟨hcap, le_refl cap⟩
    | some b => exact hb b rfl
  have hr := refillBucket_bounds cap rate (b0.getD ⟨cap, now⟩) now hcap hrate
    hstart.1 hstart.2
  simp only [takeTokenWith]
  split
  · rename_i h
    constructor
    · simp only
      linarith [h]
    · simp only
      linarith [hr.2]
  · exact hr

theorem bucketTrace_bounds (cap rate : ℚ) (hcap : 0 ≤ cap) (hrate : 0 ≤ rate)
    (ts : List ℚ) (b0 : Option Bucket)
    (hb : ∀ b, b0 = some b → 0 ≤ b.tokens ∧ b.tokens ≤ cap) :
    ∀ b ∈ bucketTrace cap rate b0 ts, 0 ≤ b.tokens ∧ b.tokens ≤ cap := by
  induction ts generalizing b0 with
  | nil => intro b hb2; simp [bucketTrace] at hb2
  | cons t ts ih =>
    intro b hb2
    simp only [bucketTrace, List.mem_cons] at hb2
    have hstep := takeTokenWith_bounds cap rate b0 t hcap hrate hb
    rcases hb2 with h | h
    · exact h ▸ hstep
    · exact ih (some (takeTokenWith cap rate b0 t).bucket)
        (fun b2 hb3 => by cases hb3; exact hstep) b h

theorem takeTokenWith_no_elapse (cap rate : ℚ) (c t : ℚ) :
    takeTokenWith cap rate (some ⟨c, t⟩) t =
      if c ≥ 1 then ⟨true, ⌊c - 1⌋, ⟨c - 1, t⟩⟩ else ⟨false, ⌊c⌋, ⟨c, t⟩⟩ := by
  simp [takeTokenWith, refillBucket]

theorem allowedTrace_burst (rate t : ℚ) (n : ℕ) :
    ∀ (m k : ℕ), k ≤ n →
      allowedTrace (n : ℚ) rate (some ⟨(n : ℚ) - (k : ℚ), t⟩) (List.replicate m t) =
        List.replicate (min m (n - k)) true ++ List.replicate (m - (n - k)) false := by
  intro m
  induction m with
  | zero => intro k hk; simp [allowedTrace]
  | succ m ih =>
    intro k hk
    rw [List.replicate_succ]
    simp only [allowedTrace]
    rw [takeTokenWith_no_elapse]
    by_cases hge : (n : ℚ) - (k : ℚ) ≥ 1
    · have hkn : k < n := by
        by_contra hc
        have hkeq : k = n := le_antisymm hk (not_lt.mp hc)
        subst hkeq
        simp at hge
        linarith
      rw [if_pos hge]
      simp only
      have hcast : (n : ℚ) - (k : ℚ) - 1 = (n : ℚ) - ((k + 1 : ℕ) : ℚ) := by
        push_cast; ring
      rw [hcast, ih (k + 1) hkn]
      have h1 : min (m + 1) (n - k) = min m (n - (k + 1)) + 1 := by omega
      have h2 : m + 1 - (n - k) = m - (n - (k + 1)) := by omega
      rw [h1, h2, List.replicate_succ]
      simp
    · rw [if_neg hge]
      simp only
      rw [ih k hk]
      have hkeq : n ≤ k := by
        have hq : (n : ℚ) < (k : ℚ) + 1 := by linarith [not_le.mp hge]
        have hn : n < k + 1 := by exact_mod_cast hq
        omega
      have h0 : n - k = 0 := by omega
      rw [h0]
      simp [List.replicate_succ]

/-- C3. Token bucket boundedness and the burst/refill behaviour: (i) over any
call sequence on one fresh identity the token count stays within
[0, capacity] after every call; (ii) from a fresh bucket, `capacity`
consecutive calls with no elapsed time are admitted and the next one is
rejected; (iii) a refill `capacity / refillRatePerSecond` seconds after the
bucket's refill timestamp restores exactly `capacity` tokens. -/
theorem tokenBucket_invariants :
    (∀ (cap rate : ℚ), 0 ≤ cap → 0 ≤ rate → ∀ (ts : List ℚ),
      ∀ b ∈ bucketTrace cap rate none ts, 0 ≤ b.tokens ∧ b.tokens ≤ cap) ∧
    (∀ (n : ℕ) (rate t : ℚ),
      allowedTrace (n : ℚ) rate none (List.replicate (n + 1) t) =
        List.replicate n true ++ [false]) ∧
    (∀ (cap rate : ℚ), 0 < cap → 0 < rate → ∀ (b : Bucket), 0 ≤ b.tokens →
      (refillBucket cap rate b (b.last + 1000 * (cap / rate))).tokens = cap) := by
  refine ⟨?_, ?_, ?_⟩
  · intro cap rate hcap hrate ts
    exact bucketTrace_bounds cap rate hcap hrate ts none (by intro b h; cases h)
  · intro n rate t
    rw [List.replicate_succ]
    simp only [allowedTrace]
    have hfresh : takeTokenWith (n : ℚ) rate none t =
        takeTokenWith (n : ℚ) rate (some ⟨(n : ℚ), t⟩) t := rfl
    rw [hfresh, takeTokenWith_no_elapse]
    by_cases hn : (n : ℚ) ≥ 1
    · have hn1 : 1 ≤ n := by exact_mod_cast hn
      rw [if_pos hn]
      simp only
      have hcast : (n : ℚ) - 1 = (n : ℚ) - ((1 : ℕ) : ℚ) := by push_cast; ring
      rw [hcast, allowedTrace_burst rate t n n 1 hn1]
      have h1 : min n (n - 1) = n - 1 := by omega
      have h2 : n - (n - 1) = 1 := by omega
      rw [h1, h2]
      cases n with
      | zero => omega
      | succ n2 =>
        simp [List.replicate_succ]
    · have hn0 : n = 0 := by
        by_contra hc
        exact hn (by exact_mod_cast Nat.one_le_iff_ne_zero.mpr hc)
      subst hn0
      rw [if_neg hn]
      simp [allowedTrace]
  · intro cap rate hcap hrate b htok
    unfold refillBucket
    have helapsed : (b.last + 1000 * (cap / rate) - b.last) / 1000 = cap / rate := by
      have hrne : rate ≠ 0 := ne_of_gt hrate
      field_simp
      ring
    rw [helapsed]
    have hpos : cap / rate > 0 := div_pos hcap hrate
    rw [if_pos hpos]
    simp only
    have hmul : cap / rate * rate = cap := div_mul_cancel₀ cap (ne_of_gt hrate)
    rw [hmul]
    exact min_eq_left (by linarith)

/-- C3 (witness): the invariants applied at the spec's concrete scenario,
capacity 2 and refill rate 1. -/
theorem tokenBucket_invariants_witness :
    (∀ b ∈ bucketTrace 2 1 none [0], 0 ≤ b.tokens ∧ b.tokens ≤ 2) ∧
    allowedTrace ((2 : ℕ) : ℚ) 1 none (List.replicate 3 0) = [true, true, false] ∧
    (refillBucket 2 1 ⟨0, 0⟩ (0 + 1000 * (2 / 1))).tokens = 2 := by
  refine ⟨tokenBucket_invariants.1 2 1 (by norm_num) (by norm_num) [0], ?_,
    tokenBucket_invariants.2.2 2 1 (by norm_num) (by norm_num) ⟨0, 0⟩ (by norm_num)⟩
  have h := tokenBucket_invariants.2.1 2 1 0
  simpa using h

theorem refillBucket_eq (cap rate : ℚ) (b : Bucket) (now : ℚ)
    (hlast : b.last ≤ now) (htok : b.tokens ≤ cap) :
    refillBucket cap rate b now =
      ⟨min cap (b.tokens + (now - b.last) / 1000 * rate), now⟩ := by
  unfold refillBucket
  split
  · rfl
  · rename_i h
    have h1 : 0 ≤ (now - b.last) / 1000 := by
      apply div_nonneg (by linarith) (by norm_num)
    have h0 : (now - b.last) / 1000 = 0 := le_antisymm (not_lt.mp h) h1
    have hnum : now - b.last = 0 := by
      rw [div_eq_zero_iff] at h0
      rcases h0 with h0 | h0
      · exact h0
      · norm_num at h0
    have hnow : now = b.last := by linarith
    rw [h0]
    cases b with
    | mk tk ls =>
      simp only at htok hnow ⊢
      rw [hnow]
      congr 1
      rw [zero_mul, add_zero]
      exact (min_eq_right htok).symm

/-- C4. On every `takeToken` call, admitted or rejected, the bucket is first
refilled by `elapsed * refillRatePerSecond` tokens capped at `capacity` and
its refill timestamp becomes `now`; the call is admitted iff the post-refill
count is at least 1, in which case exactly one token is subtracted; a
rejected call subtracts nothing; the returned remaining value is the floor
of the post-decision token count. (Stated for a bucket in a reachable state:
timestamp not in the future and tokens not above capacity.) -/
theorem takeToken_step_semantics (cap rate : ℚ) (b : Bucket) (now : ℚ)
    (hlast : b.last ≤ now) (htok : b.tokens ≤ cap) :
    (takeTokenWith cap rate (some b) now).bucket.last = now ∧
    ((takeTokenWith cap rate (some b) now).allowed = true ↔
      1 ≤ min cap (b.tokens + (now - b.last) / 1000 * rate)) ∧
    (takeTokenWith cap rate (some b) now).bucket.tokens =
      min cap (b.tokens + (now - b.last) / 1000 * rate) -
        (if (takeTokenWith cap rate (some b) now).allowed then 1 else 0) ∧
    (takeTokenWith cap rate (some b) now).remaining =
      ⌊(takeTokenWith cap rate (some b) now).bucket.tokens⌋ := by
  have hre := refillBucket_eq cap rate b now hlast htok
  simp only [takeTokenWith, Option.getD_some, hre]
  by_cases h : min cap (b.tokens + (now - b.last) / 1000 * rate) ≥ 1
  · simp [h]
  · simp [h]

/-- C4 (witness): the step semantics applied at a concrete bucket. -/
theorem takeToken_step_semantics_witness :
    (takeTokenWith 50 2 (some ⟨1, 0⟩) 500).bucket.last = 500 ∧
    ((takeTokenWith 50 2 (some ⟨1, 0⟩) 500).allowed = true ↔
      1 ≤ min 50 ((1 : ℚ) + (500 - 0) / 1000 * 2)) ∧
    (takeTokenWith 50 2 (some ⟨1, 0⟩) 500).bucket.tokens =
      min 50 ((1 : ℚ) + (500 - 0) / 1000 * 2) -
        (if (takeTokenWith 50 2 (some ⟨1, 0⟩) 500).allowed then 1 else 0) ∧
    (takeTokenWith 50 2 (some ⟨1, 0⟩) 500).remaining =
      ⌊(takeTokenWith 50 2 (some ⟨1, 0⟩) 500).bucket.tokens⌋ :=
  takeToken_step_semantics 50 2 ⟨1, 0⟩ 500 (by norm_num) (by norm_num)

/-! ### buildTree (src/utils/buildTree.ts): construction of the path trie -/

/-- An entry of the GitHub tree listing (src/utils/fetchRepoTree.ts). -/
structure TreeNode where
  path : Str
  type : Str
deriving DecidableEq

/-- The value stored in `treeMap` for one node. -/
structure NodeData where
  children : List Str
  isDir : Bool
deriving DecidableEq

abbrev TreeMap := List (Str × NodeData)

/-- Append a child name to a node's children list, modelling
`treeMap.get(key)!.children.push(c)` (the key is present at all call sites). -/
def pushChild : TreeMap → Str → Str → TreeMap
  | [], _, _ => []
  | (k, nd) :: rest, key, c =>
    if k = key then (k, ⟨nd.children ++ [c], nd.isDir⟩) :: rest
    else (k, nd) :: pushChild rest key c

/-- `treeMap.get(key)!.children.includes(c)`. -/
def childMem (m : TreeMap) (key c : Str) : Bool :=
  match alookup m key with
  | some nd => decide (c ∈ nd.children)
  | none => false

/-- The per-entry loop of buildTree: walk the path segments left to right,
creating each missing node (a directory unless it is the final segment of a
blob entry) and registering it as a child of the node above. -/
def insertSegs : TreeMap → Str → List Str → Bool → TreeMap
  | m, _, [], _ => m
  | m, cur, s :: rest, isTree =>
    let fullPath := cur ++ '/' :: s
    let m1 := if (alookup m fullPath).isSome then m
      else aset m fullPath ⟨[], !rest.isEmpty || isTree⟩
    let m2 := if childMem m1 cur s then m1 else pushChild m1 cur s
    insertSegs m2 fullPath rest isTree

def processEntry (root : Str) (m : TreeMap) (e : TreeNode) : TreeMap :=
  insertSegs m root (splitOnSlash e.path) (decide (e.type = strOf "tree"))

/-- The whole construction loop of buildTree: a map holding the root node
and every path prefix of every entry. -/
def buildTreeMap (treeData : List TreeNode) (root : Str) : TreeMap :=
  treeData.foldl (processEntry root) [(root, ⟨[], true⟩)]

/-! ### buildLevel: the renderer -/

/-- One line-emission event of buildLevel: node `parent` emits child `child`
with indentation `pfx`; `isLast` records whether the child had the final
index in the sorted children array, `isDir` the child node's flag. -/
structure EmitEvent where
  parent : Str
  child : Str
  pfx : Str
  isLast : Bool
  isDir : Bool
deriving DecidableEq

/-- `treeMap.get(k)!` (call sites guarantee presence). -/
def nodeOf (m : TreeMap) (k : Str) : NodeData := (alookup m k).getD ⟨[], false⟩

def connectorStr (isLast : Bool) : Str :=
  if isLast then strOf "└── " else strOf "├── "

def extensionStr (isLast : Bool) : Str :=
  if isLast then strOf "    " else strOf "│   "

/-- The output line of one emission event:
prefix, connector, name, a slash for directories, newline. -/
def eventLine (e : EmitEvent) : Str :=
  e.pfx ++ connectorStr e.isLast ++ e.child ++ (if e.isDir then ['/'] else []) ++ ['\n']

/-- The indentation prefix passed to the emitted child's subtree. -/
def eventSubPfx (e : EmitEvent) : Str := e.pfx ++ extensionStr e.isLast

structure RenderRes where
  out : Str
  proc : List Str
  events : List EmitEvent
  skipped : Nat
deriving DecidableEq

/-- The forEach body of buildLevel over the sorted children array: `i` is the
index and `total` the array length; a child whose full path is missing from
the map is skipped (counted in `skipped`); otherwise its line is emitted and
its subtree rendered through `rec`. -/
def renderKids (rec : Str → Str → List Str → RenderRes) (m : TreeMap)
    (path pre : Str) : List Str → Nat → Nat → List Str → RenderRes
  | [], _, _, proc => ⟨[], proc, [], 0⟩
  | c :: cs, i, total, proc =>
    let childPath := path ++ '/' :: c
    if (alookup m childPath).isSome then
      let ev : EmitEvent := ⟨path, c, pre, decide (i = total - 1), (nodeOf m childPath).isDir⟩
      let sub := rec childPath (eventSubPfx ev) proc
      let rest := renderKids rec m path pre cs (i + 1) total sub.proc
      ⟨eventLine ev ++ sub.out ++ rest.out, rest.proc, ev :: (sub.events ++ rest.events),
        sub.skipped + rest.skipped⟩
    else
      let rest := renderKids rec m path pre cs (i + 1) total proc
      ⟨rest.out, rest.proc, rest.events, rest.skipped + 1⟩

/-- buildLevel: a node not in the processed set is marked processed and its
children, sorted, are emitted in order. `fuel` bounds the recursion depth
(the code's recursion terminates because paths strictly lengthen along a
chain of map keys; `buildTreeCore` passes more fuel than there are keys). -/
def renderGo (m : TreeMap) : Nat → Str → Str → List Str → RenderRes
  | 0, _, _, proc => ⟨[], proc, [], 0⟩
  | fuel + 1, path, pre, proc =>
    if path ∈ proc then ⟨[], proc, [], 0⟩
    else
      let children := sortJS (nodeOf m path).children
      renderKids (fun p pr pc => renderGo m fuel p pr pc) m path pre children 0
        children.length (path :: proc)

/-- `Array.from(treeMap.values()).filter(v => v.isDir).length - 1`. -/
def dirCount (m : TreeMap) : Nat := (m.filter (fun kv => kv.2.isDir)).length - 1

/-- `Array.from(treeMap.values()).filter(v => !v.isDir).length`. -/
def fileCount (m : TreeMap) : Nat := (m.filter (fun kv => !kv.2.isDir)).length

def natToStr (n : Nat) : Str := (Nat.repr n).data

/-- buildTree with the root label abstracted: the code computes
`rootName = owner + "/" + repo + ":" + branch` once and uses it only as an
opaque label. Output: root line, tree lines, blank line, summary line. -/
def buildTreeCore (treeData : List TreeNode) (root : Str) : Str :=
  let m := buildTreeMap treeData root
  let r := renderGo m (m.length + 1) root [] []
  root ++ '\n' :: r.out ++ '\n' :: (natToStr (dirCount m) ++ strOf " directories, "
    ++ natToStr (fileCount m) ++ strOf " files")

def rootLabel (owner repo branch : Str) : Str := owner ++ '/' :: repo ++ ':' :: branch

/-- `buildTree(treeData, owner, repo, branch)` of the source. -/
def buildTree (treeData : List TreeNode) (owner repo branch : Str) : Str :=
  buildTreeCore treeData (rootLabel owner repo branch)

/-- C5. The concrete scenario: entries a/b.txt and a/c/d.txt (both blobs)
under root label R render as the claimed five tree lines, a blank line and
the summary line. -/
theorem buildTree_concrete_scenario :
    buildTreeCore [⟨strOf "a/b.txt", strOf "blob"⟩, ⟨strOf "a/c/d.txt", strOf "blob"⟩]
      (strOf "R") =
    strOf "R\n└── a/\n    ├── b.txt\n    └── c/\n        └── d.txt\n\n2 directories, 2 files" := by
  decide

/-! ### Invariants of the constructed map -/

theorem alookup_pushChild_none {m : TreeMap} {key : Str} (c : Str)
    (h : alookup m key = none) : pushChild m key c = m := by
  induction m with
  | nil => rfl
  | cons kv rest ih =>
    obtain ⟨k, nd⟩ := kv
    simp only [alookup] at h
    by_cases hk : k = key
    · simp [hk] at h
    · simp only [pushChild, if_neg hk]
      rw [ih (by simpa [hk] using h)]

theorem alookup_pushChild_self {m : TreeMap} {key : Str} {nd : NodeData} (c : Str)
    (h : alookup m key = some nd) :
    alookup (pushChild m key c) key = some ⟨nd.children ++ [c], nd.isDir⟩ := by
  induction m with
  | nil => simp [alookup] at h
  | cons kv rest ih =>
    obtain ⟨k, nd0⟩ := kv
    by_cases hk : k = key
    · subst hk
      simp only [alookup, if_pos rfl] at h
      cases h
      simp [pushChild, alookup]
    · simp only [alookup, if_neg hk] at h
      simp only [pushChild, if_neg hk, alookup, if_neg hk]
      exact ih h

theorem alookup_pushChild_ne {m : TreeMap} {key q : Str} (c : Str) (hne : q ≠ key) :
    alookup (pushChild m key c) q = alookup m q := by
  have hne2 : ¬ key = q := fun h => hne h.symm
  induction m with
  | nil => rfl
  | cons kv rest ih =>
    obtain ⟨k, nd⟩ := kv
    by_cases hk : k = key
    · subst hk
      simp [pushChild, alookup, hne2]
    · by_cases hq : k = q <;> simp [pushChild, alookup, hk, hq, ih, hne, hne2]

/-- Effect of one construction step on an existing node: the directory flag
is never changed and children only grow at the end. -/
theorem alookup_insertSegs_grow (L : List Str) (m : TreeMap) (cur : Str) (b : Bool)
    {k : Str} {nd : NodeData} (h : alookup m k = some nd) :
    ∃ extra, alookup (insertSegs m cur L b) k = some ⟨nd.children ++ extra, nd.isDir⟩ := by
  induction L generalizing m cur nd with
  | nil =>
    refine ⟨[], ?_⟩
    simpa [insertSegs] using h
  | cons s rest ih =>
    simp only [insertSegs]
    set fullPath := cur ++ '/' :: s with hfp
    by_cases hfull : (alookup m fullPath).isSome
    · simp only [if_pos hfull]
      by_cases hcm : childMem m cur s
      · simp only [if_pos hcm]
        exact ih m fullPath h
      · simp only [if_neg hcm]
        by_cases hk : k = cur
        · subst hk
          have h2 := alookup_pushChild_self s h
          obtain ⟨extra, h3⟩ := ih (pushChild m k s) fullPath h2
          exact ⟨[s] ++ extra, by simpa using h3⟩
        · have h2 : alookup (pushChild m cur s) k = some nd := by
            rw [alookup_pushChild_ne s hk]; exact h
          exact ih (pushChild m cur s) fullPath h2
    · simp only [if_neg hfull]
      have hknefull : k ≠ fullPath := by
        intro hk
        apply hfull
        rw [← hk, h]
        rfl
      have h1 : alookup (aset m fullPath ⟨[], !rest.isEmpty || b⟩) k = some nd := by
        rw [alookup_aset_ne m fullPath k _ hknefull]; exact h
      have hch : childMem (aset m fullPath ⟨[], !rest.isEmpty || b⟩) cur s =
          childMem m cur s ∨ True := Or.inr trivial
      by_cases hcm : childMem (aset m fullPath ⟨[], !rest.isEmpty || b⟩) cur s
      · simp only [if_pos hcm]
        exact ih _ fullPath h1
      · simp only [if_neg hcm]
        by_cases hk : k = cur
        · subst hk
          have h2 := alookup_pushChild_self s h1
          obtain ⟨extra, h3⟩ := ih _ fullPath h2
          exact ⟨[s] ++ extra, by simpa using h3⟩
        · have h2 : alookup (pushChild (aset m fullPath ⟨[], !rest.isEmpty || b⟩) cur s) k
              = some nd := by
            rw [alookup_pushChild_ne s hk]; exact h1
          exact ih _ fullPath h2

/-- Keys are never removed by a construction step. -/
theorem alookup_insertSegs_mono (L : List Str) (m : TreeMap) (cur : Str) (b : Bool)
    {k : Str} (h : (alookup m k).isSome) :
    (alookup (insertSegs m cur L b) k).isSome := by
  rcases Option.isSome_iff_exists.mp h with ⟨nd, hnd⟩
  obtain ⟨extra, h2⟩ := alookup_insertSegs_grow L m cur b hnd
  simp [h2]

/-- Every registered child name has its node in the map. -/
def ChildClosed (m : TreeMap) : Prop :=
  ∀ k nd, alookup m k = some nd → ∀ c ∈ nd.children, (alookup m (k ++ '/' :: c)).isSome

/-- No node registers the same child name twice. -/
def ChildrenNodup (m : TreeMap) : Prop :=
  ∀ k nd, alookup m k = some nd → nd.children.Nodup

/-- Child names are path segments and contain no separator. -/
def ChildrenSlashFree (m : TreeMap) : Prop :=
  ∀ k nd, alookup m k = some nd → ∀ c ∈ nd.children, '/' ∉ c

/-- The map binds every key at most once. -/
def KeysNodup (m : TreeMap) : Prop := (m.map Prod.fst).Nodup

theorem alookup_eq_none_iff {α : Type} (m : List (Str × α)) (k : Str) :
    alookup m k = none ↔ k ∉ m.map Prod.fst := by
  induction m with
  | nil => simp [alookup]
  | cons kv rest ih =>
    obtain ⟨k0, v⟩ := kv
    by_cases hk : k0 = k
    · subst hk
      simp only [alookup, if_pos rfl, List.map_cons, List.mem_cons]
      constructor
      · intro h
        exact Option.noConfusion h
      · intro h
        exact absurd (Or.inl trivial) h
    · simp only [alookup, if_neg hk, List.map_cons, List.mem_cons]
      rw [ih]
      constructor
      · intro h
        push_neg
        exact ⟨fun hq => hk hq.symm, h⟩
      · intro h
        push_neg at h
        exact h.2

theorem aset_fresh_append {α : Type} (m : List (Str × α)) (key : Str) (v : α)
    (h : alookup m key = none) : aset m key v = m ++ [(key, v)] := by
  induction m with
  | nil => rfl
  | cons kv rest ih =>
    obtain ⟨k, w⟩ := kv
    simp only [alookup] at h
    by_cases hk : k = key
    · simp [hk] at h
    · simp [aset, hk, ih (by simpa [hk] using h)]

theorem keys_pushChild (m : TreeMap) (key c : Str) :
    (pushChild m key c).map Prod.fst = m.map Prod.fst := by
  induction m with
  | nil => rfl
  | cons kv rest ih =>
    obtain ⟨k, nd⟩ := kv
    by_cases hk : k = key <;> simp [pushChild, hk, ih]

theorem alookup_aset_isSome {α : Type} (m : List (Str × α)) (key q : Str) (v : α)
    (h : (alookup m q).isSome) : (alookup (aset m key v) q).isSome := by
  by_cases hq : q = key
  · subst hq; simp [alookup_aset_self]
  · rw [alookup_aset_ne m key q v hq]; exact h

theorem alookup_pushChild_isSome (m : TreeMap) (key c q : Str) :
    (alookup (pushChild m key c) q).isSome = (alookup m q).isSome := by
  by_cases hq : q = key
  · subst hq
    cases h : alookup m q with
    | none => rw [alookup_pushChild_none c h, h]
    | some nd => simp [alookup_pushChild_self c h, h]
  · rw [alookup_pushChild_ne c hq]

/-- One construction pass preserves all map invariants. -/
theorem insertSegs_wf (L : List Str) (m : TreeMap) (cur : Str) (b : Bool)
    (hL : ∀ s ∈ L, '/' ∉ s)
    (h1 : KeysNodup m) (h2 : ChildClosed m) (h3 : ChildrenNodup m)
    (h4 : ChildrenSlashFree m) :
    KeysNodup (insertSegs m cur L b) ∧ ChildClosed (insertSegs m cur L b) ∧
      ChildrenNodup (insertSegs m cur L b) ∧ ChildrenSlashFree (insertSegs m cur L b) := by
  induction L generalizing m cur with
  | nil => simpa [insertSegs] using ⟨h1, h2, h3, h4⟩
  | cons s rest ih =>
    have hs : '/' ∉ s := hL s (List.mem_cons_self s rest)
    have hLrest : ∀ s2 ∈ rest, '/' ∉ s2 := fun s2 h => hL s2 (List.mem_cons_of_mem s h)
    simp only [insertSegs]
    set fullPath := cur ++ '/' :: s with hfp
    set nd0 : NodeData := ⟨[], !rest.isEmpty || b⟩ with hnd0
    set m1 := if (alookup m fullPath).isSome then m else aset m fullPath nd0 with hm1
    have hm1wf : KeysNodup m1 ∧ ChildClosed m1 ∧ ChildrenNodup m1 ∧
        ChildrenSlashFree m1 ∧ (alookup m1 fullPath).isSome := by
      rw [hm1]
      by_cases hfull : (alookup m fullPath).isSome
      · simpa [hfull] using ⟨h1, h2, h3, h4⟩
      · rw [if_neg hfull]
        have hnone : alookup m fullPath = none := by
          cases h : alookup m fullPath with
          | none => rfl
          | some nd => rw [h] at hfull; simp at hfull
        refine ⟨?_, ?_, ?_, ?_, by simp [alookup_aset_self]⟩
        · unfold KeysNodup
          rw [aset_fresh_append m fullPath nd0 hnone]
          have hnotin : fullPath ∉ m.map Prod.fst := (alookup_eq_none_iff m fullPath).mp hnone
          have h1n : (List.map Prod.fst m).Nodup := h1
          simp [List.nodup_append, h1n, hnotin]
        · intro k nd hk c hc
          by_cases hkf : k = fullPath
          · subst hkf
            rw [alookup_aset_self] at hk
            cases hk
            simp [hnd0] at hc
          · rw [alookup_aset_ne m fullPath k nd0 hkf] at hk
            exact alookup_aset_isSome m fullPath _ nd0 (h2 k nd hk c hc)
        · intro k nd hk
          by_cases hkf : k = fullPath
          · subst hkf
            rw [alookup_aset_self] at hk
            cases hk
            simp [hnd0]
          · rw [alookup_aset_ne m fullPath k nd0 hkf] at hk
            exact h3 k nd hk
        · intro k nd hk c hc
          by_cases hkf : k = fullPath
          · subst hkf
            rw [alookup_aset_self] at hk
            cases hk
            simp [hnd0] at hc
          · rw [alookup_aset_ne m fullPath k nd0 hkf] at hk
            exact h4 k nd hk c hc
    obtain ⟨g1, g2, g3, g4, g5⟩ := hm1wf
    set m2 := if childMem m1 cur s then m1 else pushChild m1 cur s with hm2
    have hm2wf : KeysNodup m2 ∧ ChildClosed m2 ∧ ChildrenNodup m2 ∧
        ChildrenSlashFree m2 := by
      rw [hm2]
      by_cases hcm : childMem m1 cur s
      · simpa [hcm] using ⟨g1, g2, g3, g4⟩
      · rw [if_neg hcm]
        cases hcur : alookup m1 cur with
        | none => rw [alookup_pushChild_none s hcur]; exact ⟨g1, g2, g3, g4⟩
        | some ndc =>
          have hnotmem : s ∉ ndc.children := by
            intro hmem
            apply hcm
            unfold childMem
            rw [hcur]
            simpa using hmem
          refine ⟨?_, ?_, ?_, ?_⟩
          · unfold KeysNodup
            rw [keys_pushChild]
            exact g1
          · intro k nd hk c hc
            rw [alookup_pushChild_isSome]
            by_cases hkc : k = cur
            · subst hkc
              rw [alookup_pushChild_self s hcur] at hk
              cases hk
              simp only at hc
              rcases List.mem_append.mp hc with hcl | hcl
              · exact g2 k ndc hcur c hcl
              · have hcs : c = s := by simpa using hcl
                subst hcs
                exact g5
            · rw [alookup_pushChild_ne s hkc] at hk
              exact g2 k nd hk c hc
          · intro k nd hk
            by_cases hkc : k = cur
            · subst hkc
              rw [alookup_pushChild_self s hcur] at hk
              cases hk
              simp only
              rw [List.nodup_append]
              exact ⟨g3 k ndc hcur, List.nodup_singleton s, by simpa using hnotmem⟩
            · rw [alookup_pushChild_ne s hkc] at hk
              exact g3 k nd hk
          · intro k nd hk c hc
            by_cases hkc : k = cur
            · subst hkc
              rw [alookup_pushChild_self s hcur] at hk
              cases hk
              simp only at hc
              rcases List.mem_append.mp hc with hcl | hcl
              · exact g4 k ndc hcur c hcl
              · have hcs : c = s := by simpa using hcl
                subst hcs
                exact hs
            · rw [alookup_pushChild_ne s hkc] at hk
              exact g4 k nd hk c hc
    exact ih m2 fullPath hLrest hm2wf.1 hm2wf.2.1 hm2wf.2.2.1 hm2wf.2.2.2

theorem foldl_processEntry_grow (td : List TreeNode) (root : Str) (m : TreeMap)
    {k : Str} {nd : NodeData} (h : alookup m k = some nd) :
    ∃ extra, alookup (td.foldl (processEntry root) m) k =
      some ⟨nd.children ++ extra, nd.isDir⟩ := by
  induction td generalizing m nd with
  | nil => exact ⟨[], by simpa using h⟩
  | cons e td ih =>
    obtain ⟨e1, h1⟩ := alookup_insertSegs_grow (splitOnSlash e.path) m root
      (decide (e.type = strOf "tree")) h
    have h1e : alookup (processEntry root m e) k =
        some ⟨nd.children ++ e1, nd.isDir⟩ := h1
    obtain ⟨e2, h2⟩ := ih (processEntry root m e) h1e
    exact ⟨e1 ++ e2, by simpa [List.append_assoc] using h2⟩

theorem foldl_processEntry_wf (td : List TreeNode) (root : Str) (m : TreeMap)
    (h1 : KeysNodup m) (h2 : ChildClosed m) (h3 : ChildrenNodup m)
    (h4 : ChildrenSlashFree m) :
    KeysNodup (td.foldl (processEntry root) m) ∧
      ChildClosed (td.foldl (processEntry root) m) ∧
      ChildrenNodup (td.foldl (processEntry root) m) ∧
      ChildrenSlashFree (td.foldl (processEntry root) m) := by
  induction td generalizing m with
  | nil => simpa using ⟨h1, h2, h3, h4⟩
  | cons e td ih =>
    have hwf := insertSegs_wf (splitOnSlash e.path) m root
      (decide (e.type = strOf "tree")) (splitOnSlash_no_slash e.path) h1 h2 h3 h4
    exact ih (processEntry root m e) hwf.1 hwf.2.1 hwf.2.2.1 hwf.2.2.2

theorem initMap_wf (root : Str) :
    KeysNodup [(root, (⟨[], true⟩ : NodeData))] ∧
      ChildClosed [(root, (⟨[], true⟩ : NodeData))] ∧
      ChildrenNodup [(root, (⟨[], true⟩ : NodeData))] ∧
      ChildrenSlashFree [(root, (⟨[], true⟩ : NodeData))] := by
  refine ⟨by simp [KeysNodup], ?_, ?_, ?_⟩ <;>
    intro k nd hk <;>
    simp only [alookup] at hk <;>
    by_cases hr : root = k <;>
    simp [hr] at hk <;>
    simp [← hk]

theorem buildTreeMap_wf (td : List TreeNode) (root : Str) :
    KeysNodup (buildTreeMap td root) ∧ ChildClosed (buildTreeMap td root) ∧
      ChildrenNodup (buildTreeMap td root) ∧
      ChildrenSlashFree (buildTreeMap td root) := by
  have h0 := initMap_wf root
  exact foldl_processEntry_wf td root _ h0.1 h0.2.1 h0.2.2.1 h0.2.2.2

theorem buildTreeMap_root (td : List TreeNode) (root : Str) :
    ∃ ch, alookup (buildTreeMap td root) root = some ⟨ch, true⟩ := by
  have h0 : alookup [(root, (⟨[], true⟩ : NodeData))] root = some ⟨[], true⟩ := by
    simp [alookup]
  obtain ⟨extra, h⟩ := foldl_processEntry_grow td root _ h0
  exact ⟨extra, by simpa using h⟩

theorem alookup_some_mem {α : Type} {m : List (Str × α)} {k : Str} {v : α}
    (h : alookup m k = some v) : (k, v) ∈ m := by
  induction m with
  | nil => simp [alookup] at h
  | cons kv rest ih =>
    obtain ⟨k0, w⟩ := kv
    simp only [alookup] at h
    by_cases hk : k0 = k
    · subst hk
      simp only [if_pos rfl] at h
      cases h
      exact List.mem_cons_self _ _
    · simp only [if_neg hk] at h
      exact List.mem_cons_of_mem _ (ih h)

theorem filter_partition_length {α : Type} (l : List α) (p : α → Bool) :
    (l.filter p).length + (l.filter (fun x => !p x)).length = l.length := by
  induction l with
  | nil => rfl
  | cons x xs ih =>
    by_cases h : p x <;> simp [List.filter_cons, h] <;> omega

theorem count_isDir_split (m : TreeMap) (root : Str) (hn : KeysNodup m)
    {ch : List Str} (hr : alookup m root = some ⟨ch, true⟩) :
    (m.filter (fun kv => kv.2.isDir)).length =
      (m.filter (fun kv => kv.2.isDir && decide (kv.1 ≠ root))).length + 1 := by
  induction m generalizing ch with
  | nil => simp [alookup] at hr
  | cons kv rest ih =>
    obtain ⟨k, nd⟩ := kv
    have hn2 : KeysNodup rest := by
      unfold KeysNodup at hn ⊢
      simp only [List.map_cons, List.nodup_cons] at hn
      exact hn.2
    simp only [alookup] at hr
    by_cases hk : k = root
    · subst hk
      simp only [if_pos rfl] at hr
      cases hr
      have hnotin : k ∉ rest.map Prod.fst := by
        unfold KeysNodup at hn
        simp only [List.map_cons, List.nodup_cons] at hn
        exact hn.1
      have hfe : rest.filter (fun kv => kv.2.isDir && !decide (kv.1 = k)) =
          rest.filter (fun kv => kv.2.isDir) := by
        apply List.filter_congr
        intro x hx
        have hxk : ¬ x.1 = k := by
          intro hq
          exact hnotin (hq ▸ List.mem_map_of_mem Prod.fst hx)
        simp [hxk]
      simp [List.filter_cons, hfe]
    · simp only [if_neg hk] at hr
      have hkr : (k ≠ root) := hk
      by_cases hd : nd.isDir <;>
        simp [List.filter_cons, hd, hkr, ih hn2 hr]

/-- C6. In the rendered output the reported directories count equals the
number of nodes with isDir true other than the root, the files count equals
the number of nodes with isDir false, and directories + files equals the
number of non-root nodes of the constructed map. -/
theorem buildTree_count_consistency (td : List TreeNode) (root : Str) :
    dirCount (buildTreeMap td root) =
      ((buildTreeMap td root).filter
        (fun kv => kv.2.isDir && decide (kv.1 ≠ root))).length ∧
    fileCount (buildTreeMap td root) =
      ((buildTreeMap td root).filter (fun kv => !kv.2.isDir)).length ∧
    dirCount (buildTreeMap td root) + fileCount (buildTreeMap td root) =
      (buildTreeMap td root).length - 1 := by
  obtain ⟨ch, hr⟩ := buildTreeMap_root td root
  have hn := (buildTreeMap_wf td root).1
  have hsplit := count_isDir_split (buildTreeMap td root) root hn hr
  refine ⟨?_, rfl, ?_⟩
  · unfold dirCount
    omega
  · unfold dirCount fileCount
    have hpart := filter_partition_length (buildTreeMap td root)
      (fun kv => kv.2.isDir)
    omega

/-! ### What one visit of buildLevel emits -/

def filterParent (q : Str) (evs : List EmitEvent) : List EmitEvent :=
  evs.filter (fun e => decide (e.parent = q))

/-- The events a single visit of `path` (with prefix `pre`) emits, one per
child of the sorted children array whose node exists in the map. -/
def ownEventsAux (m : TreeMap) (path pre : Str) : List Str → Nat → Nat → List EmitEvent
  | [], _, _ => []
  | c :: cs, i, total =>
    if (alookup m (path ++ '/' :: c)).isSome then
      ⟨path, c, pre, decide (i = total - 1), (nodeOf m (path ++ '/' :: c)).isDir⟩ ::
        ownEventsAux m path pre cs (i + 1) total
    else ownEventsAux m path pre cs (i + 1) total

def ownEvents (m : TreeMap) (path pre : Str) : List EmitEvent :=
  ownEventsAux m path pre (sortJS (nodeOf m path).children) 0
    (sortJS (nodeOf m path).children).length

theorem ownEventsAux_mem {m : TreeMap} {path pre : Str} {cs : List Str}
    {i total : Nat} {e : EmitEvent} (h : e ∈ ownEventsAux m path pre cs i total) :
    e.parent = path ∧ e.pfx = pre ∧ e.child ∈ cs ∧
      e.isDir = (nodeOf m (path ++ '/' :: e.child)).isDir := by
  induction cs generalizing i with
  | nil => simp [ownEventsAux] at h
  | cons c cs ih =>
    simp only [ownEventsAux] at h
    by_cases hp : (alookup m (path ++ '/' :: c)).isSome
    · rw [if_pos hp] at h
      rcases List.mem_cons.mp h with h1 | h1
      · subst h1
        simp
      · have h2 := ih h1
        exact ⟨h2.1, h2.2.1, List.mem_cons_of_mem c h2.2.2.1, h2.2.2.2⟩
    · rw [if_neg hp] at h
      have h2 := ih h
      exact ⟨h2.1, h2.2.1, List.mem_cons_of_mem c h2.2.2.1, h2.2.2.2⟩

theorem ownEventsAux_child_sublist (m : TreeMap) (path pre : Str) (cs : List Str)
    (i total : Nat) :
    ((ownEventsAux m path pre cs i total).map (fun e => e.child)).Sublist cs := by
  induction cs generalizing i with
  | nil => simp [ownEventsAux]
  | cons c cs ih =>
    simp only [ownEventsAux]
    by_cases hp : (alookup m (path ++ '/' :: c)).isSome
    · rw [if_pos hp]
      simpa using List.Sublist.cons₂ c (ih (i + 1))
    · rw [if_neg hp]
      exact List.Sublist.cons c (ih (i + 1))

/-- With every child present in the map, a visit skips nothing: the emitted
children are exactly the sorted array and the flags mark the final index. -/
theorem ownEventsAux_full (m : TreeMap) (path pre : Str) (cs : List Str)
    (i total : Nat) (hfull : ∀ c ∈ cs, (alookup m (path ++ '/' :: c)).isSome) :
    (ownEventsAux m path pre cs i total).map (fun e => e.child) = cs ∧
    (ownEventsAux m path pre cs i total).map (fun e => e.isLast) =
      (List.range' i cs.length 1).map (fun j => decide (j = total - 1)) := by
  induction cs generalizing i with
  | nil => simp [ownEventsAux]
  | cons c cs ih =>
    have hc := hfull c (List.mem_cons_self c cs)
    have hrest : ∀ c2 ∈ cs, (alookup m (path ++ '/' :: c2)).isSome :=
      fun c2 h2 => hfull c2 (List.mem_cons_of_mem c h2)
    simp only [ownEventsAux, if_pos hc, List.map_cons, List.length_cons,
      List.range'_succ]
    have h2 := ih (i + 1) hrest
    exact ⟨by rw [h2.1], by rw [h2.2]⟩

theorem ownEventsAux_unique_child {m : TreeMap} {path pre : Str} {cs : List Str}
    {i total : Nat} (hnd : cs.Nodup) {e1 e2 : EmitEvent}
    (h1 : e1 ∈ ownEventsAux m path pre cs i total)
    (h2 : e2 ∈ ownEventsAux m path pre cs i total) (hc : e1.child = e2.child) :
    e1 = e2 := by
  induction cs generalizing i with
  | nil => simp [ownEventsAux] at h1
  | cons c cs ih =>
    have hnd2 : cs.Nodup := hnd.of_cons
    have hcnot : c ∉ cs := by
      rw [List.nodup_cons] at hnd
      exact hnd.1
    simp only [ownEventsAux] at h1 h2
    by_cases hp : (alookup m (path ++ '/' :: c)).isSome
    · rw [if_pos hp] at h1 h2
      rcases List.mem_cons.mp h1 with g1 | g1 <;> rcases List.mem_cons.mp h2 with g2 | g2
      · rw [g1, g2]
      · exfalso
        have := (ownEventsAux_mem g2).2.2.1
        rw [g1] at hc
        simp only at hc
        rw [← hc] at this
        exact hcnot this
      · exfalso
        have := (ownEventsAux_mem g1).2.2.1
        rw [g2] at hc
        simp only at hc
        rw [hc] at this
        exact hcnot this
      · exact ih hnd2 g1 g2
    · rw [if_neg hp] at h1 h2
      exact ih hnd2 h1 h2

theorem childPath_length (path c : Str) :
    (path ++ '/' :: c).length = path.length + c.length + 1 := by
  simp [List.length_append]
  omega

theorem ne_of_length_lt {a b : Str} (h : a.length < b.length) : b ≠ a := by
  intro he
  rw [he] at h
  exact lt_irrefl _ h


theorem filterParent_append (q : Str) (l1 l2 : List EmitEvent) :
    filterParent q (l1 ++ l2) = filterParent q l1 ++ filterParent q l2 :=
  List.filter_append l1 l2

theorem filterParent_cons_self {e : EmitEvent} {q : Str} (h : e.parent = q)
    (l : List EmitEvent) : filterParent q (e :: l) = e :: filterParent q l := by
  simp [filterParent, List.filter_cons, h]

theorem filterParent_cons_ne {e : EmitEvent} {q : Str} (h : e.parent ≠ q)
    (l : List EmitEvent) : filterParent q (e :: l) = filterParent q l := by
  simp [filterParent, List.filter_cons, h]

theorem filterParent_eq_nil_of (l : List EmitEvent) (q : Str)
    (h : ∀ e ∈ l, e.parent ≠ q) : filterParent q l = [] := by
  rw [filterParent, List.filter_eq_nil_iff]
  intro e he
  simp [h e he]

theorem mem_filterParent {e : EmitEvent} {q : Str} {l : List EmitEvent} :
    e ∈ filterParent q l ↔ e ∈ l ∧ e.parent = q := by
  simp [filterParent, List.mem_filter]

theorem renderKids_cons_present {rec : Str → Str → List Str → RenderRes}
    {m : TreeMap} {path pre c : Str} {cs : List Str} {i total : Nat}
    {proc : List Str} (hp : (alookup m (path ++ '/' :: c)).isSome)
    (ev : EmitEvent) (hev : ev = ⟨path, c, pre, decide (i = total - 1),
      (nodeOf m (path ++ '/' :: c)).isDir⟩)
    (sub : RenderRes) (hsub : sub = rec (path ++ '/' :: c) (eventSubPfx ev) proc)
    (rest : RenderRes)
    (hrest : rest = renderKids rec m path pre cs (i + 1) total sub.proc) :
    renderKids rec m path pre (c :: cs) i total proc =
      ⟨eventLine ev ++ sub.out ++ rest.out, rest.proc, ev :: (sub.events ++ rest.events),
        sub.skipped + rest.skipped⟩ := by
  subst hev
  subst hsub
  subst hrest
  simp only [renderKids, if_pos hp]

theorem renderKids_cons_skip {rec : Str → Str → List Str → RenderRes}
    {m : TreeMap} {path pre c : Str} {cs : List Str} {i total : Nat}
    {proc : List Str} (hp : ¬ (alookup m (path ++ '/' :: c)).isSome)
    (rest : RenderRes)
    (hrest : rest = renderKids rec m path pre cs (i + 1) total proc) :
    renderKids rec m path pre (c :: cs) i total proc =
      ⟨rest.out, rest.proc, rest.events, rest.skipped + 1⟩ := by
  subst hrest
  simp only [renderKids, if_neg hp]

theorem renderGo_zero (m : TreeMap) (path pre : Str) (proc : List Str) :
    renderGo m 0 path pre proc = ⟨[], proc, [], 0⟩ := rfl

theorem renderGo_succ_blocked {m : TreeMap} {fuel : Nat} {path pre : Str}
    {proc : List Str} (h : path ∈ proc) :
    renderGo m (fuel + 1) path pre proc = ⟨[], proc, [], 0⟩ := by
  simp [renderGo, h]

theorem renderGo_succ_visit {m : TreeMap} {fuel : Nat} {path pre : Str}
    {proc : List Str} (h : path ∉ proc) :
    renderGo m (fuel + 1) path pre proc =
      renderKids (fun p pr pc => renderGo m fuel p pr pc) m path pre
        (sortJS (nodeOf m path).children) 0
        (sortJS (nodeOf m path).children).length (path :: proc) := by
  simp [renderGo, h]

theorem renderKids_props (m : TreeMap) (rec : Str → Str → List Str → RenderRes)
    (Hproc : ∀ p pr pc, pc ⊆ (rec p pr pc).proc)
    (Hlen : ∀ p pr pc e, e ∈ (rec p pr pc).events → p.length ≤ e.parent.length)
    (Hblocked : ∀ p pr pc q, q ∈ pc → filterParent q (rec p pr pc).events = [])
    (Hvisit : ∀ p pr pc q, filterParent q (rec p pr pc).events ≠ [] →
      q ∉ pc ∧ q ∈ (rec p pr pc).proc ∧
        ∃ pr2, filterParent q (rec p pr pc).events = ownEvents m q pr2)
    (path pre : Str) (cs : List Str) (i total : Nat) (proc : List Str) :
    proc ⊆ (renderKids rec m path pre cs i total proc).proc ∧
    (∀ e ∈ (renderKids rec m path pre cs i total proc).events,
      path.length ≤ e.parent.length) ∧
    filterParent path (renderKids rec m path pre cs i total proc).events =
      ownEventsAux m path pre cs i total ∧
    (∀ q, q ∈ proc → q ≠ path →
      filterParent q (renderKids rec m path pre cs i total proc).events = []) ∧
    (∀ q, q ≠ path →
      filterParent q (renderKids rec m path pre cs i total proc).events ≠ [] →
      q ∉ proc ∧ q ∈ (renderKids rec m path pre cs i total proc).proc ∧
        ∃ pr2, filterParent q (renderKids rec m path pre cs i total proc).events =
          ownEvents m q pr2) := by
  induction cs generalizing i proc with
  | nil =>
    refine ⟨List.Subset.refl proc, ?_, ?_, ?_, ?_⟩ <;>
      simp [renderKids, filterParent, ownEventsAux]
  | cons c cs ih =>
    by_cases hp : (alookup m (path ++ '/' :: c)).isSome
    · set ev : EmitEvent := ⟨path, c, pre, decide (i = total - 1),
        (nodeOf m (path ++ '/' :: c)).isDir⟩ with hev
      set sub := rec (path ++ '/' :: c) (eventSubPfx ev) proc with hsub
      set rest := renderKids rec m path pre cs (i + 1) total sub.proc with hrest
      rw [renderKids_cons_present hp ev hev sub hsub rest hrest]
      obtain ⟨ih1, ih2, ih3, ih4, ih5⟩ := ih (i + 1) sub.proc
      rw [← hrest] at ih1 ih2 ih3 ih4 ih5
      have hproc_sub : proc ⊆ sub.proc := by
        rw [hsub]; exact Hproc _ _ _
      have hchlen : path.length < (path ++ '/' :: c).length := by
        rw [childPath_length]; omega
      have hsub_len : ∀ e ∈ sub.events, (path ++ '/' :: c).length ≤ e.parent.length := by
        intro e he
        rw [hsub] at he
        exact Hlen _ _ _ e he
      have hsub_ne_path : ∀ e ∈ sub.events, e.parent ≠ path := by
        intro e he hq
        have h1 := hsub_len e he
        rw [hq] at h1
        omega
      have hevparent : ev.parent = path := by rw [hev]
      refine ⟨?_, ?_, ?_, ?_, ?_⟩
      · exact hproc_sub.trans ih1
      · intro e he
        simp only [List.mem_cons, List.mem_append] at he
        rcases he with he | he | he
        · rw [he, hevparent]
        · exact le_trans (le_of_lt hchlen) (hsub_len e he)
        · exact ih2 e he
      · rw [filterParent_cons_self hevparent, filterParent_append,
          filterParent_eq_nil_of sub.events path hsub_ne_path, ih3]
        simp only [List.nil_append, ownEventsAux, if_pos hp]
      · intro q hq hqpath
        have hne : ev.parent ≠ q := by
          rw [hevparent]
          exact fun h => hqpath h.symm
        rw [filterParent_cons_ne hne, filterParent_append]
        have hsubnil : filterParent q sub.events = [] := by
          rw [hsub]
          exact Hblocked _ _ _ q hq
        have hrestnil : filterParent q rest.events = [] := ih4 q (hproc_sub hq) hqpath
        rw [hsubnil, hrestnil]
        rfl
      · intro q hqpath hne
        have hhne : ev.parent ≠ q := by
          rw [hevparent]
          exact fun h => hqpath h.symm
        rw [filterParent_cons_ne hhne, filterParent_append] at hne ⊢
        by_cases hsubnil : filterParent q sub.events = []
        · rw [hsubnil] at hne ⊢
          simp only [List.nil_append] at hne ⊢
          obtain ⟨g1, g2, pr2, g3⟩ := ih5 q hqpath hne
          exact ⟨fun hq => g1 (hproc_sub hq), g2, pr2, g3⟩
        · have hsubne : filterParent q
              (rec (path ++ '/' :: c) (eventSubPfx ev) proc).events ≠ [] := by
            rw [← hsub]
            exact hsubnil
          obtain ⟨g1, g2, pr2, g3⟩ := Hvisit (path ++ '/' :: c) (eventSubPfx ev) proc q hsubne
          have g2s : q ∈ sub.proc := by rw [hsub]; exact g2
          have g3s : filterParent q sub.events = ownEvents m q pr2 := by
            rw [hsub]; exact g3
          have hrestnil : filterParent q rest.events = [] := ih4 q g2s hqpath
          rw [hrestnil, g3s]
          exact ⟨g1, ih1 g2s, pr2, by simp⟩
    · set rest := renderKids rec m path pre cs (i + 1) total proc with hrest
      rw [renderKids_cons_skip hp rest hrest]
      obtain ⟨ih1, ih2, ih3, ih4, ih5⟩ := ih (i + 1) proc
      rw [← hrest] at ih1 ih2 ih3 ih4 ih5
      refine ⟨ih1, ih2, ?_, ih4, ih5⟩
      simp only [ownEventsAux, if_neg hp]
      exact ih3

theorem renderGo_props (m : TreeMap) (fuel : Nat) :
    (∀ p pr pc, pc ⊆ (renderGo m fuel p pr pc).proc) ∧
    (∀ p pr pc e, e ∈ (renderGo m fuel p pr pc).events → p.length ≤ e.parent.length) ∧
    (∀ p pr pc q, q ∈ pc → filterParent q (renderGo m fuel p pr pc).events = []) ∧
    (∀ p pr pc q, filterParent q (renderGo m fuel p pr pc).events ≠ [] →
      q ∉ pc ∧ q ∈ (renderGo m fuel p pr pc).proc ∧
        ∃ pr2, filterParent q (renderGo m fuel p pr pc).events = ownEvents m q pr2) := by
  induction fuel with
  | zero =>
    refine ⟨fun p pr pc => List.Subset.refl pc, ?_, ?_, ?_⟩
    · intro p pr pc e he
      simp [renderGo_zero] at he
    · intro p pr pc q hq
      simp [renderGo_zero, filterParent]
    · intro p pr pc q hne
      exfalso
      apply hne
      simp [renderGo_zero, filterParent]
  | succ fuel ih =>
    obtain ⟨ih1, ih2, ih3, ih4⟩ := ih
    have hK : ∀ p pr pc, p ∉ pc →
        ((p :: pc) ⊆ (renderGo m (fuel + 1) p pr pc).proc ∧
        (∀ e ∈ (renderGo m (fuel + 1) p pr pc).events, p.length ≤ e.parent.length) ∧
        filterParent p (renderGo m (fuel + 1) p pr pc).events =
          ownEventsAux m p pr (sortJS (nodeOf m p).children) 0
            (sortJS (nodeOf m p).children).length ∧
        (∀ q, q ∈ (p :: pc) → q ≠ p →
          filterParent q (renderGo m (fuel + 1) p pr pc).events = []) ∧
        (∀ q, q ≠ p →
          filterParent q (renderGo m (fuel + 1) p pr pc).events ≠ [] →
          q ∉ (p :: pc) ∧ q ∈ (renderGo m (fuel + 1) p pr pc).proc ∧
            ∃ pr2, filterParent q (renderGo m (fuel + 1) p pr pc).events =
              ownEvents m q pr2)) := by
      intro p pr pc hmem
      rw [renderGo_succ_visit hmem]
      exact renderKids_props m (fun p2 pr2 pc2 => renderGo m fuel p2 pr2 pc2)
        ih1 ih2 ih3 ih4 p pr (sortJS (nodeOf m p).children) 0
        (sortJS (nodeOf m p).children).length (p :: pc)
    refine ⟨?_, ?_, ?_, ?_⟩
    · intro p pr pc
      by_cases hmem : p ∈ pc
      · rw [renderGo_succ_blocked hmem]
        exact List.Subset.refl pc
      · exact (List.subset_cons_self p pc).trans (hK p pr pc hmem).1
    · intro p pr pc e he
      by_cases hmem : p ∈ pc
      · rw [renderGo_succ_blocked hmem] at he
        simp at he
      · exact (hK p pr pc hmem).2.1 e he
    · intro p pr pc q hq
      by_cases hmem : p ∈ pc
      · rw [renderGo_succ_blocked hmem]
        simp [filterParent]
      · have hqp : q ≠ p := fun h => hmem (h ▸ hq)
        exact (hK p pr pc hmem).2.2.2.1 q (List.mem_cons_of_mem p hq) hqp
    · intro p pr pc q hne
      by_cases hmem : p ∈ pc
      · rw [renderGo_succ_blocked hmem] at hne
        exfalso
        apply hne
        simp [filterParent]
      · obtain ⟨k1, k2, k3, k4, k5⟩ := hK p pr pc hmem
        by_cases hqp : q = p
        · subst hqp
          exact ⟨hmem, k1 (List.mem_cons_self q pc), pr, k3⟩
        · obtain ⟨g1, g2, pr2, g3⟩ := k5 q hqp hne
          exact ⟨fun hq => g1 (List.mem_cons_of_mem p hq), g2, pr2, g3⟩

theorem renderKids_out (m : TreeMap) (rec : Str → Str → List Str → RenderRes)
    (Hout : ∀ p pr pc, (rec p pr pc).out =
      List.flatten ((rec p pr pc).events.map eventLine))
    (path pre : Str) (cs : List Str) (i total : Nat) (proc : List Str) :
    (renderKids rec m path pre cs i total proc).out =
      List.flatten ((renderKids rec m path pre cs i total proc).events.map eventLine) := by
  induction cs generalizing i proc with
  | nil => rfl
  | cons c cs ih =>
    by_cases hp : (alookup m (path ++ '/' :: c)).isSome
    · set ev : EmitEvent := ⟨path, c, pre, decide (i = total - 1),
        (nodeOf m (path ++ '/' :: c)).isDir⟩ with hev
      set sub := rec (path ++ '/' :: c) (eventSubPfx ev) proc with hsub
      set rest := renderKids rec m path pre cs (i + 1) total sub.proc with hrest
      rw [renderKids_cons_present hp ev hev sub hsub rest hrest]
      have h1 : sub.out = List.flatten (sub.events.map eventLine) := by
        rw [hsub]; exact Hout _ _ _
      have h2 : rest.out = List.flatten (rest.events.map eventLine) := by
        rw [hrest]; exact ih (i + 1) sub.proc
      simp [h1, h2]
    · set rest := renderKids rec m path pre cs (i + 1) total proc with hrest
      rw [renderKids_cons_skip hp rest hrest]
      have h2 : rest.out = List.flatten (rest.events.map eventLine) := by
        rw [hrest]; exact ih (i + 1) proc
      exact h2

theorem renderGo_out (m : TreeMap) (fuel : Nat) :
    ∀ p pr pc, (renderGo m fuel p pr pc).out =
      List.flatten ((renderGo m fuel p pr pc).events.map eventLine) := by
  induction fuel with
  | zero => intro p pr pc; rfl
  | succ fuel ih =>
    intro p pr pc
    by_cases hmem : p ∈ pc
    · rw [renderGo_succ_blocked hmem]
      rfl
    · rw [renderGo_succ_visit hmem]
      exact renderKids_out m _ ih p pr _ 0 _ (p :: pc)

theorem renderKids_isDir (m : TreeMap) (rec : Str → Str → List Str → RenderRes)
    (Hdir : ∀ p pr pc e, e ∈ (rec p pr pc).events →
      e.isDir = (nodeOf m (e.parent ++ '/' :: e.child)).isDir)
    (path pre : Str) (cs : List Str) (i total : Nat) (proc : List Str) :
    ∀ e ∈ (renderKids rec m path pre cs i total proc).events,
      e.isDir = (nodeOf m (e.parent ++ '/' :: e.child)).isDir := by
  induction cs generalizing i proc with
  | nil => intro e he; simp [renderKids] at he
  | cons c cs ih =>
    by_cases hp : (alookup m (path ++ '/' :: c)).isSome
    · set ev : EmitEvent := ⟨path, c, pre, decide (i = total - 1),
        (nodeOf m (path ++ '/' :: c)).isDir⟩ with hev
      set sub := rec (path ++ '/' :: c) (eventSubPfx ev) proc with hsub
      set rest := renderKids rec m path pre cs (i + 1) total sub.proc with hrest
      rw [renderKids_cons_present hp ev hev sub hsub rest hrest]
      intro e he
      simp only [List.mem_cons, List.mem_append] at he
      rcases he with he | he | he
      · rw [he, hev]
      · have := Hdir _ _ _ e (by rw [hsub] at he; exact he)
        exact this
      · exact ih (i + 1) sub.proc e (by rw [hrest] at he; exact he)
    · set rest := renderKids rec m path pre cs (i + 1) total proc with hrest
      rw [renderKids_cons_skip hp rest hrest]
      intro e he
      exact ih (i + 1) proc e (by rw [hrest] at he; exact he)

theorem renderGo_isDir (m : TreeMap) (fuel : Nat) :
    ∀ p pr pc e, e ∈ (renderGo m fuel p pr pc).events →
      e.isDir = (nodeOf m (e.parent ++ '/' :: e.child)).isDir := by
  induction fuel with
  | zero => intro p pr pc e he; simp [renderGo_zero] at he
  | succ fuel ih =>
    intro p pr pc e he
    by_cases hmem : p ∈ pc
    · rw [renderGo_succ_blocked hmem] at he
      simp at he
    · rw [renderGo_succ_visit hmem] at he
      exact renderKids_isDir m _ ih p pr _ 0 _ (p :: pc) e he

theorem renderKids_origin (m : TreeMap) (rec : Str → Str → List Str → RenderRes)
    (Horigin : ∀ p pr pc e2, e2 ∈ (rec p pr pc).events →
      (e2.parent = p ∧ e2.pfx = pr) ∨ ∃ e3 ∈ (rec p pr pc).events,
        e2.parent = e3.parent ++ '/' :: e3.child ∧ e2.pfx = eventSubPfx e3)
    (path pre : Str) (cs : List Str) (i total : Nat) (proc : List Str) :
    ∀ e2 ∈ (renderKids rec m path pre cs i total proc).events,
      (e2.parent = path ∧ e2.pfx = pre) ∨
      ∃ e3 ∈ (renderKids rec m path pre cs i total proc).events,
        e2.parent = e3.parent ++ '/' :: e3.child ∧ e2.pfx = eventSubPfx e3 := by
  induction cs generalizing i proc with
  | nil => intro e he; simp [renderKids] at he
  | cons c cs ih =>
    by_cases hp : (alookup m (path ++ '/' :: c)).isSome
    · set ev : EmitEvent := ⟨path, c, pre, decide (i = total - 1),
        (nodeOf m (path ++ '/' :: c)).isDir⟩ with hev
      set sub := rec (path ++ '/' :: c) (eventSubPfx ev) proc with hsub
      set rest := renderKids rec m path pre cs (i + 1) total sub.proc with hrest
      rw [renderKids_cons_present hp ev hev sub hsub rest hrest]
      intro e2 he
      simp only [List.mem_cons, List.mem_append] at he
      rcases he with he | he | he
      · left
        rw [he, hev]
        exact ⟨rfl, rfl⟩
      · rcases Horigin _ _ _ e2 (by rw [hsub] at he; exact he) with h | ⟨e3, he3, h1, h2⟩
        · right
          refine ⟨ev, by simp, ?_, ?_⟩
          · rw [h.1, hev]
          · exact h.2
        · right
          exact ⟨e3, by simp [he3], h1, h2⟩
      · rcases ih (i + 1) sub.proc e2 (by rw [hrest] at he; exact he) with h | ⟨e3, he3, h1, h2⟩
        · exact Or.inl h
        · right
          refine ⟨e3, ?_, h1, h2⟩
          simp only [List.mem_cons, List.mem_append]
          right; right
          rw [← hrest] at he3
          exact he3
    · set rest := renderKids rec m path pre cs (i + 1) total proc with hrest
      rw [renderKids_cons_skip hp rest hrest]
      intro e2 he
      rcases ih (i + 1) proc e2 (by rw [hrest] at he; exact he) with h | ⟨e3, he3, h1, h2⟩
      · exact Or.inl h
      · right
        refine ⟨e3, ?_, h1, h2⟩
        rw [← hrest] at he3
        exact he3

theorem renderGo_origin (m : TreeMap) (fuel : Nat) :
    ∀ p pr pc e2, e2 ∈ (renderGo m fuel p pr pc).events →
      (e2.parent = p ∧ e2.pfx = pr) ∨
      ∃ e3 ∈ (renderGo m fuel p pr pc).events,
        e2.parent = e3.parent ++ '/' :: e3.child ∧ e2.pfx = eventSubPfx e3 := by
  induction fuel with
  | zero => intro p pr pc e he; simp [renderGo_zero] at he
  | succ fuel ih =>
    intro p pr pc e2 he
    by_cases hmem : p ∈ pc
    · rw [renderGo_succ_blocked hmem] at he
      simp at he
    · rw [renderGo_succ_visit hmem] at he
      rcases renderKids_origin m _ ih p pr _ 0 _ (p :: pc) e2 he with h | ⟨e3, he3, h1, h2⟩
      · exact Or.inl h
      · right
        refine ⟨e3, ?_, h1, h2⟩
        rw [renderGo_succ_visit hmem]
        exact he3

theorem renderKids_skipped (m : TreeMap) (rec : Str → Str → List Str → RenderRes)
    (Hskip : ∀ p pr pc, (rec p pr pc).skipped = 0)
    (path pre : Str) (cs : List Str) (i total : Nat) (proc : List Str)
    (hcs : ∀ c ∈ cs, (alookup m (path ++ '/' :: c)).isSome) :
    (renderKids rec m path pre cs i total proc).skipped = 0 := by
  induction cs generalizing i proc with
  | nil => rfl
  | cons c cs ih =>
    have hp : (alookup m (path ++ '/' :: c)).isSome := hcs c (List.mem_cons_self c cs)
    set ev : EmitEvent := ⟨path, c, pre, decide (i = total - 1),
      (nodeOf m (path ++ '/' :: c)).isDir⟩ with hev
    set sub := rec (path ++ '/' :: c) (eventSubPfx ev) proc with hsub
    set rest := renderKids rec m path pre cs (i + 1) total sub.proc with hrest
    rw [renderKids_cons_present hp ev hev sub hsub rest hrest]
    have h1 : sub.skipped = 0 := by rw [hsub]; exact Hskip _ _ _
    have h2 : rest.skipped = 0 := by
      rw [hrest]
      exact ih (i + 1) sub.proc (fun c2 hc2 => hcs c2 (List.mem_cons_of_mem c hc2))
    simp [h1, h2]

theorem renderGo_skipped (m : TreeMap) (hc : ChildClosed m) (fuel : Nat) :
    ∀ p pr pc, (renderGo m fuel p pr pc).skipped = 0 := by
  induction fuel with
  | zero => intro p pr pc; rfl
  | succ fuel ih =>
    intro p pr pc
    by_cases hmem : p ∈ pc
    · rw [renderGo_succ_blocked hmem]
    · rw [renderGo_succ_visit hmem]
      apply renderKids_skipped m _ ih
      intro c2 hc2
      cases hnode : alookup m p with
      | none =>
        rw [List.mem_iff_get] at hc2
        exfalso
        have : (nodeOf m p).children = [] := by simp [nodeOf, hnode]
        rw [this] at hc2
        obtain ⟨n, hn⟩ := hc2
        have := n.2
        simp [sortJS, List.insertionSort] at this
      | some nd =>
        have hmemc : c2 ∈ nd.children := by
          have h2 : c2 ∈ sortJS (nodeOf m p).children := hc2
          have h3 := (sortJS_perm (nodeOf m p).children).mem_iff.mp h2
          simpa [nodeOf, hnode] using h3
        exact hc p nd hnode c2 hmemc

theorem sorted_children_present {m : TreeMap} (hc : ChildClosed m) (q : Str) :
    ∀ c ∈ sortJS (nodeOf m q).children, (alookup m (q ++ '/' :: c)).isSome := by
  intro c hmem
  have h2 : c ∈ (nodeOf m q).children := (sortJS_perm _).mem_iff.mp hmem
  cases hnode : alookup m q with
  | none => simp [nodeOf, hnode] at h2
  | some nd =>
    have h3 : c ∈ nd.children := by simpa [nodeOf, hnode] using h2
    exact hc q nd hnode c h3

/-- C7. For every entry list and every parent node, the children emitted by
the renderer for that parent appear in ascending UTF-16 lexicographic order
of their segment name, regardless of input order. -/
theorem render_sibling_order (td : List TreeNode) (root : Str) (fuel : Nat) (q : Str) :
    List.Sorted jsLe
      ((filterParent q (renderGo (buildTreeMap td root) fuel root [] []).events).map
        (fun e => e.child)) := by
  by_cases hne :
      filterParent q (renderGo (buildTreeMap td root) fuel root [] []).events = []
  · rw [hne]
    exact List.sorted_nil
  · obtain ⟨_, _, pr2, heq⟩ :=
      (renderGo_props (buildTreeMap td root) fuel).2.2.2 root [] [] q hne
    rw [heq]
    have hsub := ownEventsAux_child_sublist (buildTreeMap td root) q pr2
      (sortJS (nodeOf (buildTreeMap td root) q).children) 0
      (sortJS (nodeOf (buildTreeMap td root) q).children).length
    exact List.Pairwise.sublist hsub (sortJS_sorted _)

/-- C10. After construction, every registered child of every node has its
full path present in the map; consequently the renderer's guard that skips a
missing child never fires (the skip counter stays 0 for every visit), and
each visited parent emits exactly its sorted children, one line each. -/
theorem buildTree_children_closed_no_skips (td : List TreeNode) (root : Str) :
    (∀ k nd, alookup (buildTreeMap td root) k = some nd →
      ∀ c ∈ nd.children, (alookup (buildTreeMap td root) (k ++ '/' :: c)).isSome) ∧
    (∀ fuel p pr pc, (renderGo (buildTreeMap td root) fuel p pr pc).skipped = 0) ∧
    (∀ fuel q,
      filterParent q (renderGo (buildTreeMap td root) fuel root [] []).events = [] ∨
      (filterParent q (renderGo (buildTreeMap td root) fuel root [] []).events).map
        (fun e => e.child) = sortJS ((nodeOf (buildTreeMap td root) q).children)) := by
  have hwf := buildTreeMap_wf td root
  refine ⟨hwf.2.1, fun fuel => renderGo_skipped _ hwf.2.1 fuel, ?_⟩
  intro fuel q
  by_cases hne :
      filterParent q (renderGo (buildTreeMap td root) fuel root [] []).events = []
  · exact Or.inl hne
  · right
    obtain ⟨_, _, pr2, heq⟩ :=
      (renderGo_props (buildTreeMap td root) fuel).2.2.2 root [] [] q hne
    rw [heq]
    exact (ownEventsAux_full (buildTreeMap td root) q pr2 _ 0 _
      (sorted_children_present hwf.2.1 q)).1

/-- C10 (witness): the closure and skip-freedom at a concrete listing. -/
theorem buildTree_children_closed_no_skips_witness :
    (alookup (buildTreeMap [⟨strOf "a/b.txt", strOf "blob"⟩] (strOf "R"))
      (strOf "R" ++ '/' :: strOf "a")).isSome ∧
    (renderGo (buildTreeMap [⟨strOf "a/b.txt", strOf "blob"⟩] (strOf "R")) 4
      (strOf "R") [] []).skipped = 0 := by
  constructor
  · exact (buildTree_children_closed_no_skips [⟨strOf "a/b.txt", strOf "blob"⟩]
      (strOf "R")).1 (strOf "R") ⟨[strOf "a"], true⟩ (by decide) (strOf "a") (by decide)
  · exact (buildTree_children_closed_no_skips [⟨strOf "a/b.txt", strOf "blob"⟩]
      (strOf "R")).2.1 4 (strOf "R") [] []

/-- Unique decomposition of `parent ++ "/" ++ child` with slash-free child. -/
theorem append_slash_inj {p1 p2 c1 c2 : Str} (h1 : '/' ∉ c1) (h2 : '/' ∉ c2)
    (h : p1 ++ '/' :: c1 = p2 ++ '/' :: c2) : p1 = p2 ∧ c1 = c2 := by
  induction p1 generalizing p2 with
  | nil =>
    cases p2 with
    | nil =>
      simp at h
      exact ⟨rfl, h⟩
    | cons y p2 =>
      simp at h
      exfalso
      apply h1
      rw [h.2]
      exact List.mem_append_right p2 (List.mem_cons_self '/' c2)
  | cons x p1 ih =>
    cases p2 with
    | nil =>
      simp at h
      exfalso
      apply h2
      rw [← h.2]
      exact List.mem_append_right p1 (List.mem_cons_self '/' c1)
    | cons y p2 =>
      simp only [List.cons_append, List.cons.injEq] at h
      obtain ⟨hxy, hrest⟩ := h
      obtain ⟨hp, hcc⟩ := ih hrest
      exact ⟨by rw [hxy, hp], hcc⟩

/-- Every event of a render belongs to the (unique) own-emission list of its
parent. -/
theorem render_mem_own {m : TreeMap} {fuel : Nat} {p0 pr0 : Str} {pc0 : List Str}
    {e : EmitEvent} (he : e ∈ (renderGo m fuel p0 pr0 pc0).events) :
    ∃ pr2, filterParent e.parent (renderGo m fuel p0 pr0 pc0).events =
      ownEvents m e.parent pr2 ∧ e ∈ ownEvents m e.parent pr2 := by
  have hmem : e ∈ filterParent e.parent (renderGo m fuel p0 pr0 pc0).events :=
    mem_filterParent.mpr ⟨he, rfl⟩
  have hne := List.ne_nil_of_mem hmem
  obtain ⟨_, _, pr2, heq⟩ := (renderGo_props m fuel).2.2.2 p0 pr0 pc0 e.parent hne
  exact ⟨pr2, heq, heq ▸ hmem⟩

theorem render_child_mem_children {m : TreeMap} {fuel : Nat} {p0 pr0 : Str}
    {pc0 : List Str} {e : EmitEvent} (he : e ∈ (renderGo m fuel p0 pr0 pc0).events) :
    e.child ∈ (nodeOf m e.parent).children := by
  obtain ⟨pr2, _, hmem⟩ := render_mem_own he
  have h2 := (ownEventsAux_mem hmem).2.2.1
  exact (sortJS_perm _).mem_iff.mp h2

theorem render_child_slash_free {m : TreeMap} (hsf : ChildrenSlashFree m)
    {fuel : Nat} {p0 pr0 : Str} {pc0 : List Str} {e : EmitEvent}
    (he : e ∈ (renderGo m fuel p0 pr0 pc0).events) : '/' ∉ e.child := by
  have h2 := render_child_mem_children he
  cases hnode : alookup m e.parent with
  | none => simp [nodeOf, hnode] at h2
  | some nd =>
    have h3 : e.child ∈ nd.children := by simpa [nodeOf, hnode] using h2
    exact hsf e.parent nd hnode e.child h3

/-- C8. Line shape of the rendered output: the output string is exactly the
concatenation of the event lines (each line is prefix, then `└── ` for the
final child of its parent and `├── ` otherwise, the name, `/` exactly when
the child node's isDir flag is set, newline); within each parent the isLast
flag marks precisely the final emitted child; events of one parent share one
indentation prefix; and every event whose parent is the child path of
another event carries that event's subtree prefix, the parent's prefix
extended by four spaces after a final child and by `│   ` otherwise. -/
theorem render_line_format (td : List TreeNode) (root : Str) (fuel : Nat) :
    (renderGo (buildTreeMap td root) fuel root [] []).out =
      List.flatten
        (((renderGo (buildTreeMap td root) fuel root [] []).events).map eventLine) ∧
    (∀ q, (filterParent q (renderGo (buildTreeMap td root) fuel root [] []).events).map
        (fun e => e.isLast) =
      (List.range
        (filterParent q
          (renderGo (buildTreeMap td root) fuel root [] []).events).length).map
        (fun j => decide (j =
          (filterParent q
            (renderGo (buildTreeMap td root) fuel root [] []).events).length - 1))) ∧
    (∀ e ∈ (renderGo (buildTreeMap td root) fuel root [] []).events,
      e.isDir = (nodeOf (buildTreeMap td root) (e.parent ++ '/' :: e.child)).isDir) ∧
    (∀ e1 ∈ (renderGo (buildTreeMap td root) fuel root [] []).events,
      ∀ e2 ∈ (renderGo (buildTreeMap td root) fuel root [] []).events,
      e1.parent = e2.parent → e1.pfx = e2.pfx) ∧
    (∀ e ∈ (renderGo (buildTreeMap td root) fuel root [] []).events,
      ∀ e2 ∈ (renderGo (buildTreeMap td root) fuel root [] []).events,
      e2.parent = e.parent ++ '/' :: e.child → e2.pfx = eventSubPfx e) := by
  have hwf := buildTreeMap_wf td root
  refine ⟨renderGo_out _ fuel root [] [], ?_, renderGo_isDir _ fuel root [] [], ?_, ?_⟩
  · intro q
    by_cases hne :
        filterParent q (renderGo (buildTreeMap td root) fuel root [] []).events = []
    · rw [hne]
      rfl
    · obtain ⟨_, _, pr2, heq⟩ :=
        (renderGo_props (buildTreeMap td root) fuel).2.2.2 root [] [] q hne
      rw [heq]
      have hfull := ownEventsAux_full (buildTreeMap td root) q pr2
        (sortJS (nodeOf (buildTreeMap td root) q).children) 0
        (sortJS (nodeOf (buildTreeMap td root) q).children).length
        (sorted_children_present hwf.2.1 q)
      have hlen : (ownEvents (buildTreeMap td root) q pr2).length =
          (sortJS (nodeOf (buildTreeMap td root) q).children).length := by
        have := congrArg List.length hfull.1
        simpa using this
      rw [hlen, List.range_eq_range']
      simp only [ownEvents]
      exact hfull.2
  · intro e1 he1 e2 he2 hpar
    obtain ⟨pr2, hfq, hm1⟩ := render_mem_own he1
    have hm2 : e2 ∈ ownEvents (buildTreeMap td root) e1.parent pr2 := by
      rw [← hfq]
      exact mem_filterParent.mpr ⟨he2, hpar.symm⟩
    rw [(ownEventsAux_mem hm1).2.1, (ownEventsAux_mem hm2).2.1]
  · intro e he e2 he2 hpar
    rcases renderGo_origin (buildTreeMap td root) fuel root [] [] e2 he2 with
      horig | ⟨e3, he3, h1, h2⟩
    · exfalso
      have hlen := (renderGo_props (buildTreeMap td root) fuel).2.1 root [] [] e he
      have : e2.parent.length = e.parent.length + e.child.length + 1 := by
        rw [hpar, childPath_length]
      rw [horig.1] at this
      omega
    · have hsf1 := render_child_slash_free hwf.2.2.2 he
      have hsf3 := render_child_slash_free hwf.2.2.2 he3
      have hdec : e.parent = e3.parent ∧ e.child = e3.child := by
        apply append_slash_inj hsf1 hsf3
        rw [← hpar, ← h1]
      obtain ⟨pr2, hfq, hm⟩ := render_mem_own he
      have hm3 : e3 ∈ ownEvents (buildTreeMap td root) e.parent pr2 := by
        rw [← hfq]
        exact mem_filterParent.mpr ⟨he3, hdec.1.symm⟩
      have hnd : (sortJS (nodeOf (buildTreeMap td root) e.parent).children).Nodup := by
        apply (sortJS_perm _).nodup_iff.mpr
        cases hnode : alookup (buildTreeMap td root) e.parent with
        | none => simp [nodeOf, hnode]
        | some nd =>
          have := hwf.2.2.1 e.parent nd hnode
          simpa [nodeOf, hnode] using this
      have he3e : e3 = e := ownEventsAux_unique_child hnd hm3 hm hdec.2.symm
      rw [h2, he3e]

/-- C8 (witness): the line-format properties at a concrete listing. -/
theorem render_line_format_witness :
    (renderGo (buildTreeMap [⟨strOf "a", strOf "blob"⟩] (strOf "R")) 3
      (strOf "R") [] []).out =
      List.flatten
        (((renderGo (buildTreeMap [⟨strOf "a", strOf "blob"⟩] (strOf "R")) 3
          (strOf "R") [] []).events).map eventLine) :=
  (render_line_format [⟨strOf "a", strOf "blob"⟩] (strOf "R") 3).1

/-! ### The request pipeline: GET /:owner/:repo/:branch? -/

/-- The request's environment: the clock and the outcomes of the two
external fetches (an `error` models the awaited call throwing). -/
structure Env where
  now : Int
  defaultBranch : Except Str Str
  listing : Except Str (List TreeNode)

structure HResp where
  status : Nat
  body : Str
deriving DecidableEq

/-- The cache key `owner:repo:branch`. -/
def cacheKeyOf (owner repo branch : Str) : Str :=
  owner ++ ':' :: (repo ++ ':' :: branch)

/-- Branch resolution: `if (!branch) branch = await fetchDefaultBranch(...)`
(a falsy branch parameter is an absent or empty one). -/
def resolveBranch (env : Env) (branchParam : Option Str) : Except Str Str :=
  match branchParam with
  | some b => if b.isEmpty then env.defaultBranch else Except.ok b
  | none => env.defaultBranch

/-- The cache-miss tail of the handler: fetch the listing, build the tree,
store it, return it; a listing failure is caught and returned as a 500. -/
def handleMiss (env : Env) (owner repo branch cacheKey : Str)
    (cache1 : CacheMap) : HResp × CacheMap :=
  match env.listing with
  | Except.error msg => (⟨500, strOf "Error: " ++ msg⟩, cache1)
  | Except.ok tree =>
    (⟨200, buildTree tree owner repo branch⟩,
      setCache cache1 cacheKey (buildTree tree owner repo branch) env.now)

/-- The route handler: 400 when owner or repo is missing, resolve the branch,
consult the cache (a hit must be a non-empty string, since the code tests
the cached value for truthiness), otherwise run the miss path. Errors of
either fetch are caught and become a 500 with the error message. The result
carries the cache map after the request. -/
def handleRequest (env : Env) (owner repo : Str) (branchParam : Option Str)
    (cache : CacheMap) : HResp × CacheMap :=
  if owner.isEmpty || repo.isEmpty then
    (⟨400, strOf "owner and repo are required"⟩, cache)
  else
    match resolveBranch env branchParam with
    | Except.error msg => (⟨500, strOf "Error: " ++ msg⟩, cache)
    | Except.ok branch =>
      match getCache cache (cacheKeyOf owner repo branch) env.now with
      | (some v, cache1) =>
        if v.isEmpty then
          handleMiss env owner repo branch (cacheKeyOf owner repo branch) cache1
        else (⟨200, v⟩, cache1)
      | (none, cache1) =>
        handleMiss env owner repo branch (cacheKeyOf owner repo branch) cache1

/-- C9 (counterexample). The claim states that on a failure path the cache
map is left exactly as before the request. But the lookup that precedes the
listing fetch lazily evicts an expired entry, so a request whose listing
fetch fails can still shrink the cache. -/
theorem handler_failure_evicts_expired :
    ((handleRequest ⟨200, Except.ok (strOf "main"), Except.error (strOf "boom")⟩
      (strOf "o") (strOf "r") (some (strOf "m"))
      [(strOf "o:r:m", ⟨strOf "v", 100⟩)]).1.status ≠ 200) ∧
    (handleRequest ⟨200, Except.ok (strOf "main"), Except.error (strOf "boom")⟩
      (strOf "o") (strOf "r") (some (strOf "m"))
      [(strOf "o:r:m", ⟨strOf "v", 100⟩)]).2 ≠
      [(strOf "o:r:m", ⟨strOf "v", 100⟩)] := by
  constructor
  · decide
  · decide

theorem handleMiss_failure {env : Env} {owner repo branch cacheKey : Str}
    {cache1 : CacheMap}
    (h : (handleMiss env owner repo branch cacheKey cache1).1.status ≠ 200) :
    (handleMiss env owner repo branch cacheKey cache1).2 = cache1 := by
  unfold handleMiss at h ⊢
  revert h
  cases env.listing with
  | error msg =>
    intro h
    rfl
  | ok tree =>
    intro h
    simp at h

/-- C9 (amended). The cache's `set` runs only after the listing fetch and the
render have fully succeeded; on every failure path the request returns an
error response and the cache map is unchanged, except that the lookup
performed before the listing fetch may have lazily evicted an
already-expired entry (deleting exactly one key whose expiry lies in the
past). -/
theorem handler_failure_cache (env : Env) (owner repo : Str)
    (branchParam : Option Str) (cache : CacheMap)
    (h : (handleRequest env owner repo branchParam cache).1.status ≠ 200) :
    (handleRequest env owner repo branchParam cache).2 = cache ∨
    ∃ k e, alookup cache k = some e ∧ env.now > e.expires ∧
      (handleRequest env owner repo branchParam cache).2 = aerase cache k := by
  unfold handleRequest at h ⊢
  by_cases h0 : owner.isEmpty || repo.isEmpty
  · rw [if_pos h0] at h ⊢
    exact Or.inl rfl
  · rw [if_neg h0] at h ⊢
    revert h
    cases resolveBranch env branchParam with
    | error msg =>
      intro h
      exact Or.inl rfl
    | ok branch =>
      intro h
      dsimp only at h ⊢
      cases hlook : alookup cache (cacheKeyOf owner repo branch) with
      | none =>
        have hget : getCache cache (cacheKeyOf owner repo branch) env.now =
            (none, cache) := by
          simp [getCache, hlook]
        rw [hget] at h ⊢
        exact Or.inl (handleMiss_failure h)
      | some entry =>
        by_cases hexp : env.now > entry.expires
        · have hget : getCache cache (cacheKeyOf owner repo branch) env.now =
              (none, aerase cache (cacheKeyOf owner repo branch)) := by
            simp [getCache, hlook, hexp]
          rw [hget] at h ⊢
          right
          exact ⟨cacheKeyOf owner repo branch, entry, hlook, hexp,
            handleMiss_failure h⟩
        · have hget : getCache cache (cacheKeyOf owner repo branch) env.now =
              (some entry.value, cache) := by
            simp [getCache, hlook, hexp]
          rw [hget] at h ⊢
          dsimp only at h ⊢
          by_cases hemp : entry.value.isEmpty
          · rw [if_pos hemp] at h ⊢
            exact Or.inl (handleMiss_failure h)
          · rw [if_neg hemp] at h
            simp at h

/-- C9 (witness): the amended theorem applied at a concrete failing request. -/
theorem handler_failure_cache_witness :
    (handleRequest ⟨0, Except.ok (strOf "main"), Except.error (strOf "x")⟩
      (strOf "o") (strOf "r") none []).2 = ([] : CacheMap) ∨
    ∃ k e, alookup ([] : CacheMap) k = some e ∧ (0 : Int) > e.expires ∧
      (handleRequest ⟨0, Except.ok (strOf "main"), Except.error (strOf "x")⟩
        (strOf "o") (strOf "r") none []).2 = aerase [] k :=
  handler_failure_cache ⟨0, Except.ok (strOf "main"), Except.error (strOf "x")⟩
    (strOf "o") (strOf "r") none [] (by decide)

/-! ### Order independence of the construction (buildTree, first phase) -/

/-- Two maps describe the same hierarchy: the same keys, and per key the same
directory flag and the same set of child names (the stored child order and
the key insertion order may differ). -/
def MapEquiv (m1 m2 : TreeMap) : Prop :=
  (∀ k, (alookup m1 k).isSome ↔ (alookup m2 k).isSome) ∧
  (∀ k nd1 nd2, alookup m1 k = some nd1 → alookup m2 k = some nd2 →
    nd1.isDir = nd2.isDir ∧ ∀ c, c ∈ nd1.children ↔ c ∈ nd2.children)

theorem MapEquiv.refl (m : TreeMap) : MapEquiv m m := by
  refine ⟨fun k => Iff.rfl, fun k nd1 nd2 h1 h2 => ?_⟩
  rw [h1] at h2
  cases h2
  exact ⟨rfl, fun c => Iff.rfl⟩

theorem MapEquiv.symm {m1 m2 : TreeMap} (h : MapEquiv m1 m2) : MapEquiv m2 m1 :=
  ⟨fun k => (h.1 k).symm,
   fun k nd1 nd2 h1 h2 => ⟨((h.2 k nd2 nd1 h2 h1).1).symm,
     fun c => ((h.2 k nd2 nd1 h2 h1).2 c).symm⟩⟩

theorem MapEquiv.trans {m1 m2 m3 : TreeMap} (h12 : MapEquiv m1 m2)
    (h23 : MapEquiv m2 m3) : MapEquiv m1 m3 := by
  refine ⟨fun k => (h12.1 k).trans (h23.1 k), fun k nd1 nd3 h1 h3 => ?_⟩
  have h2s : (alookup m2 k).isSome := (h12.1 k).mp (by simp [h1])
  rcases Option.isSome_iff_exists.mp h2s with ⟨nd2, h2⟩
  obtain ⟨d12, c12⟩ := h12.2 k nd1 nd2 h1 h2
  obtain ⟨d23, c23⟩ := h23.2 k nd2 nd3 h2 h3
  exact ⟨d12.trans d23, fun c => (c12 c).trans (c23 c)⟩

theorem MapEquiv.isSome_eq {m1 m2 : TreeMap} (h : MapEquiv m1 m2) (k : Str) :
    (alookup m1 k).isSome = (alookup m2 k).isSome := by
  have := h.1 k
  by_cases h1 : (alookup m1 k).isSome
  · simp [h1, this.mp h1]
  · have h2 : ¬ (alookup m2 k).isSome = true := fun hh => h1 (this.mpr hh)
    simp [h1] at h2 ⊢
    simp [h1, h2]

theorem MapEquiv.aset {m1 m2 : TreeMap} (h : MapEquiv m1 m2) (key : Str)
    (v : NodeData) : MapEquiv (aset m1 key v) (aset m2 key v) := by
  constructor
  · intro k
    by_cases hk : k = key
    · subst hk
      simp [alookup_aset_self]
    · rw [alookup_aset_ne m1 key k v hk, alookup_aset_ne m2 key k v hk]
      exact h.1 k
  · intro k nd1 nd2 h1 h2
    by_cases hk : k = key
    · subst hk
      rw [alookup_aset_self] at h1 h2
      cases h1
      cases h2
      exact ⟨rfl, fun c => Iff.rfl⟩
    · rw [alookup_aset_ne m1 key k v hk] at h1
      rw [alookup_aset_ne m2 key k v hk] at h2
      exact h.2 k nd1 nd2 h1 h2

theorem MapEquiv.pushChild {m1 m2 : TreeMap} (h : MapEquiv m1 m2) (key c : Str) :
    MapEquiv (pushChild m1 key c) (pushChild m2 key c) := by
  constructor
  · intro k
    rw [alookup_pushChild_isSome, alookup_pushChild_isSome]
    exact h.1 k
  · intro k nd1 nd2 h1 h2
    by_cases hk : k = key
    · subst hk
      cases hm1 : alookup m1 k with
      | none =>
        rw [alookup_pushChild_none c hm1] at h1
        rw [hm1] at h1
        cases h1
      | some nda =>
        have h2s : (alookup m2 k).isSome := (h.1 k).mp (by simp [hm1])
        rcases Option.isSome_iff_exists.mp h2s with ⟨ndb, hm2⟩
        rw [alookup_pushChild_self c hm1] at h1
        rw [alookup_pushChild_self c hm2] at h2
        cases h1
        cases h2
        obtain ⟨hd, hc⟩ := h.2 k nda ndb hm1 hm2
        refine ⟨hd, fun c2 => ?_⟩
        simp only [List.mem_append, List.mem_singleton]
        constructor
        · intro hcc
          rcases hcc with hcc | hcc
          · exact Or.inl ((hc c2).mp hcc)
          · exact Or.inr hcc
        · intro hcc
          rcases hcc with hcc | hcc
          · exact Or.inl ((hc c2).mpr hcc)
          · exact Or.inr hcc
    · rw [alookup_pushChild_ne c hk] at h1
      rw [alookup_pushChild_ne c hk] at h2
      exact h.2 k nd1 nd2 h1 h2

theorem childMem_eq {m1 m2 : TreeMap} (h : MapEquiv m1 m2) (key c : Str) :
    childMem m1 key c = childMem m2 key c := by
  unfold childMem
  cases h1 : alookup m1 key with
  | none =>
    cases h2 : alookup m2 key with
    | none => rfl
    | some nd2 =>
      have := (h.1 key).mpr (by simp [h2])
      rw [h1] at this
      simp at this
  | some nd1 =>
    have h2s : (alookup m2 key).isSome := (h.1 key).mp (by simp [h1])
    rcases Option.isSome_iff_exists.mp h2s with ⟨nd2, h2⟩
    rw [h2]
    have hc := (h.2 key nd1 nd2 h1 h2).2 c
    simp only [decide_eq_decide]
    exact hc

theorem insertSegs_congr (L : List Str) {m1 m2 : TreeMap} (h : MapEquiv m1 m2)
    (cur : Str) (b : Bool) :
    MapEquiv (insertSegs m1 cur L b) (insertSegs m2 cur L b) := by
  induction L generalizing m1 m2 cur with
  | nil => simpa [insertSegs] using h
  | cons s rest ih =>
    simp only [insertSegs]
    have hsome : (alookup m1 (cur ++ '/' :: s)).isSome =
        (alookup m2 (cur ++ '/' :: s)).isSome := h.isSome_eq _
    by_cases hp : (alookup m1 (cur ++ '/' :: s)).isSome
    · have hp2 : (alookup m2 (cur ++ '/' :: s)).isSome := by
        rw [← hsome]; exact hp
      rw [if_pos hp, if_pos hp2, childMem_eq h cur s]
      by_cases hcm : childMem m2 cur s
      · rw [if_pos hcm, if_pos hcm]
        exact ih h _
      · rw [if_neg hcm, if_neg hcm]
        exact ih (h.pushChild cur s) _
    · have hp2 : ¬ (alookup m2 (cur ++ '/' :: s)).isSome := by
        rw [← hsome]; exact hp
      rw [if_neg hp, if_neg hp2]
      have h1 := h.aset (cur ++ '/' :: s) ⟨[], !rest.isEmpty || b⟩
      rw [childMem_eq h1 cur s]
      by_cases hcm : childMem (aset m2 (cur ++ '/' :: s) ⟨[], !rest.isEmpty || b⟩) cur s
      · rw [if_pos hcm, if_pos hcm]
        exact ih h1 _
      · rw [if_neg hcm, if_neg hcm]
        exact ih (h1.pushChild cur s) _

theorem foldl_processEntry_congr (root : Str) (L : List TreeNode)
    {m1 m2 : TreeMap} (h : MapEquiv m1 m2) :
    MapEquiv (L.foldl (processEntry root) m1) (L.foldl (processEntry root) m2) := by
  induction L generalizing m1 m2 with
  | nil => simpa using h
  | cons e L ih =>
    exact ih (insertSegs_congr (splitOnSlash e.path) h root _)

/-- The keys created along one entry's walk. -/
def chainKeys (cur : Str) : List Str → List Str
  | [] => []
  | s :: rest => (cur ++ '/' :: s) :: chainKeys (cur ++ '/' :: s) rest

/-- Which child name one entry's walk registers at which key. -/
def entryAddsChild (cur : Str) : List Str → Str → Str → Prop
  | [], _, _ => False
  | s :: rest, k, c => (k = cur ∧ c = s) ∨ entryAddsChild (cur ++ '/' :: s) rest k c

/-- The directory flag a freshly created chain node receives. -/
def entryDirFlag (cur : Str) : List Str → Bool → Str → Bool
  | [], _, _ => false
  | s :: rest, b, k =>
    if k = cur ++ '/' :: s then !rest.isEmpty || b
    else entryDirFlag (cur ++ '/' :: s) rest b k

/-- One iteration of the per-entry loop: ensure the child node exists, then
register the child name if new. -/
def insertStep (m : TreeMap) (cur s : Str) (flag : Bool) : TreeMap :=
  let m1 := if (alookup m (cur ++ '/' :: s)).isSome then m
    else aset m (cur ++ '/' :: s) ⟨[], flag⟩
  if childMem m1 cur s then m1 else pushChild m1 cur s

theorem insertSegs_cons (m : TreeMap) (cur s : Str) (rest : List Str) (b : Bool) :
    insertSegs m cur (s :: rest) b =
      insertSegs (insertStep m cur s (!rest.isEmpty || b)) (cur ++ '/' :: s) rest b := by
  simp only [insertSegs, insertStep]

theorem cur_ne_child (cur s : Str) : cur ≠ cur ++ '/' :: s := by
  intro h
  have h2 := congrArg List.length h
  rw [childPath_length] at h2
  omega

theorem insertStep_props (m : TreeMap) (cur s : Str) (flag : Bool)
    (hcur : (alookup m cur).isSome) :
    (∀ k, (alookup (insertStep m cur s flag) k).isSome ↔
      ((alookup m k).isSome ∨ k = cur ++ '/' :: s)) ∧
    (∀ k nd2, alookup (insertStep m cur s flag) k = some nd2 →
      (∀ nd, alookup m k = some nd → nd2.isDir = nd.isDir ∧
        (∀ c, c ∈ nd2.children ↔ c ∈ nd.children ∨ (k = cur ∧ c = s))) ∧
      (alookup m k = none → k = cur ++ '/' :: s ∧ nd2 = ⟨[], flag⟩)) := by
  obtain ⟨ndc, hndc⟩ := Option.isSome_iff_exists.mp hcur
  have hne : cur ≠ cur ++ '/' :: s := cur_ne_child cur s
  unfold insertStep
  by_cases hp : (alookup m (cur ++ '/' :: s)).isSome
  · simp only [if_pos hp]
    by_cases hcm : childMem m cur s
    · simp only [if_pos hcm]
      have hmem : s ∈ ndc.children := by
        unfold childMem at hcm
        rw [hndc] at hcm
        simpa using hcm
      constructor
      · intro k
        constructor
        · exact Or.inl
        · intro h
          rcases h with h | h
          · exact h
          · rw [h]; exact hp
      · intro k nd2 h2
        constructor
        · intro nd h
          rw [h2] at h
          cases h
          refine ⟨rfl, fun c => ?_⟩
          constructor
          · exact Or.inl
          · intro h
            rcases h with h | ⟨hk, hc⟩
            · exact h
            · subst hk
              rw [h2] at hndc
              cases hndc
              rw [hc]
              exact hmem
        · intro h
          rw [h2] at h
          cases h
    · simp only [if_neg hcm]
      constructor
      · intro k
        rw [alookup_pushChild_isSome]
        constructor
        · exact Or.inl
        · intro h
          rcases h with h | h
          · exact h
          · rw [h]; exact hp
      · intro k nd2 h2
        by_cases hk : k = cur
        · subst hk
          rw [alookup_pushChild_self s hndc] at h2
          cases h2
          constructor
          · intro nd h
            rw [h] at hndc
            cases hndc
            refine ⟨rfl, fun c => ?_⟩
            simp only [List.mem_append, List.mem_singleton]
            constructor
            · intro h
              rcases h with h | h
              · exact Or.inl h
              · exact Or.inr ⟨by simp, h⟩
            · intro h
              rcases h with h | ⟨_, h⟩
              · exact Or.inl h
              · exact Or.inr h
          · intro h
            rw [h] at hndc
            cases hndc
        · rw [alookup_pushChild_ne s hk] at h2
          constructor
          · intro nd h
            rw [h2] at h
            cases h
            refine ⟨rfl, fun c => ?_⟩
            constructor
            · exact Or.inl
            · intro h
              rcases h with h | ⟨hk2, _⟩
              · exact h
              · exact absurd hk2 hk
          · intro h
            rw [h2] at h
            cases h
  · simp only [if_neg hp]
    have hnone : alookup m (cur ++ '/' :: s) = none :=
      Option.not_isSome_iff_eq_none.mp hp
    have hm1cur : alookup (aset m (cur ++ '/' :: s) ⟨[], flag⟩) cur = some ndc := by
      rw [alookup_aset_ne m _ cur _ hne]
      exact hndc
    have hm1fp : alookup (aset m (cur ++ '/' :: s) ⟨[], flag⟩) (cur ++ '/' :: s) =
        some ⟨[], flag⟩ := alookup_aset_self m _ _
    have hm1k : ∀ k, k ≠ cur ++ '/' :: s →
        alookup (aset m (cur ++ '/' :: s) ⟨[], flag⟩) k = alookup m k :=
      fun k hk => alookup_aset_ne m _ k _ hk
    by_cases hcm : childMem (aset m (cur ++ '/' :: s) ⟨[], flag⟩) cur s
    · simp only [if_pos hcm]
      have hmem : s ∈ ndc.children := by
        unfold childMem at hcm
        rw [hm1cur] at hcm
        simpa using hcm
      constructor
      · intro k
        by_cases hk : k = cur ++ '/' :: s
        · subst hk
          simp [hm1fp]
        · rw [hm1k k hk]
          simp [hk]
      · intro k nd2 h2
        by_cases hk : k = cur ++ '/' :: s
        · subst hk
          rw [hm1fp] at h2
          cases h2
          constructor
          · intro nd h
            rw [hnone] at h
            cases h
          · intro h
            exact ⟨by simp, rfl⟩
        · rw [hm1k k hk] at h2
          constructor
          · intro nd h
            rw [h2] at h
            cases h
            refine ⟨rfl, fun c => ?_⟩
            constructor
            · exact Or.inl
            · intro h
              rcases h with h | ⟨hk2, hc⟩
              · exact h
              · subst hk2
                rw [h2] at hndc
                cases hndc
                rw [hc]
                exact hmem
          · intro h
            rw [h2] at h
            cases h
    · simp only [if_neg hcm]
      constructor
      · intro k
        rw [alookup_pushChild_isSome]
        by_cases hk : k = cur ++ '/' :: s
        · subst hk
          simp [hm1fp]
        · rw [hm1k k hk]
          simp [hk]
      · intro k nd2 h2
        by_cases hk : k = cur
        · subst hk
          rw [alookup_pushChild_self s hm1cur] at h2
          cases h2
          constructor
          · intro nd h
            rw [h] at hndc
            cases hndc
            refine ⟨rfl, fun c => ?_⟩
            simp only [List.mem_append, List.mem_singleton]
            constructor
            · intro h
              rcases h with h | h
              · exact Or.inl h
              · exact Or.inr ⟨by simp, h⟩
            · intro h
              rcases h with h | ⟨_, h⟩
              · exact Or.inl h
              · exact Or.inr h
          · intro h
            rw [h] at hndc
            cases hndc
        · rw [alookup_pushChild_ne s hk] at h2
          by_cases hkfp : k = cur ++ '/' :: s
          · subst hkfp
            rw [hm1fp] at h2
            cases h2
            constructor
            · intro nd h
              rw [hnone] at h
              cases h
            · intro h
              exact ⟨by simp, rfl⟩
          · rw [hm1k k hkfp] at h2
            constructor
            · intro nd h
              rw [h2] at h
              cases h
              refine ⟨rfl, fun c => ?_⟩
              constructor
              · exact Or.inl
              · intro h
                rcases h with h | ⟨hk2, _⟩
                · exact h
                · exact absurd hk2 hk
            · intro h
              rw [h2] at h
              cases h

/-- Complete pointwise description of one entry's construction pass. -/
theorem insertSegs_effect (L : List Str) (m : TreeMap) (cur : Str) (b : Bool)
    (hcur : (alookup m cur).isSome) :
    (∀ k, (alookup (insertSegs m cur L b) k).isSome ↔
      ((alookup m k).isSome ∨ k ∈ chainKeys cur L)) ∧
    (∀ k nd', alookup (insertSegs m cur L b) k = some nd' →
      (∀ nd, alookup m k = some nd →
        nd'.isDir = nd.isDir ∧
        (∀ c, c ∈ nd'.children ↔ c ∈ nd.children ∨ entryAddsChild cur L k c)) ∧
      (alookup m k = none →
        nd'.isDir = entryDirFlag cur L b k ∧
        (∀ c, c ∈ nd'.children ↔ entryAddsChild cur L k c))) := by
  induction L generalizing m cur with
  | nil =>
    constructor
    · intro k
      simp [insertSegs, chainKeys]
    · intro k nd' h'
      simp only [insertSegs] at h'
      constructor
      · intro nd h
        rw [h] at h'
        cases h'
        exact ⟨rfl, fun c => by simp [entryAddsChild]⟩
      · intro h
        rw [h] at h'
        cases h'
  | cons s rest ih =>
    rw [insertSegs_cons]
    obtain ⟨S1, S2⟩ := insertStep_props m cur s (!rest.isEmpty || b) hcur
    have hfp : (alookup (insertStep m cur s (!rest.isEmpty || b))
        (cur ++ '/' :: s)).isSome := (S1 _).mpr (Or.inr rfl)
    obtain ⟨IH1, IH2⟩ := ih (insertStep m cur s (!rest.isEmpty || b)) (cur ++ '/' :: s) hfp
    constructor
    · intro k
      rw [IH1 k, S1 k]
      simp only [chainKeys, List.mem_cons]
      tauto
    · intro k nd' h'
      obtain ⟨hcomp1, hcomp2⟩ := IH2 k nd' h'
      constructor
      · intro nd h
        have h2s : (alookup (insertStep m cur s (!rest.isEmpty || b)) k).isSome :=
          (S1 k).mpr (Or.inl (by simp [h]))
        obtain ⟨nd2, h2⟩ := Option.isSome_iff_exists.mp h2s
        obtain ⟨hd2, hch2⟩ := (S2 k nd2 h2).1 nd h
        obtain ⟨hd', hch'⟩ := hcomp1 nd2 h2
        refine ⟨hd'.trans hd2, fun c => ?_⟩
        rw [hch' c, hch2 c]
        simp only [entryAddsChild]
        tauto
      · intro h
        by_cases hkfp : k = cur ++ '/' :: s
        · subst hkfp
          obtain ⟨nd2, h2⟩ := Option.isSome_iff_exists.mp hfp
          have hnd2 := ((S2 _ nd2 h2).2 h).2
          subst hnd2
          obtain ⟨hd', hch'⟩ := hcomp1 _ h2
          constructor
          · rw [hd']
            simp [entryDirFlag]
          · intro c
            rw [hch' c]
            simp only [entryAddsChild]
            have hnc : ¬ (cur ++ '/' :: s = cur) :=
              fun hh => cur_ne_child cur s hh.symm
            simp [hnc]
        · have h2n : alookup (insertStep m cur s (!rest.isEmpty || b)) k = none := by
            rw [← Option.not_isSome_iff_eq_none]
            rw [S1 k]
            push_neg
            exact ⟨by simp [h], hkfp⟩
          obtain ⟨hd', hch'⟩ := hcomp2 h2n
          have hkc : ¬ (k = cur) := by
            intro hk
            rw [← hk, h] at hcur
            simp at hcur
          constructor
          · rw [hd']
            simp [entryDirFlag, hkfp]
          · intro c
            rw [hch' c]
            simp only [entryAddsChild]
            simp [hkc]

def restJoin : List Str → Str
  | [] => []
  | s :: rest => '/' :: s ++ restJoin rest

def joinChain (cur : Str) : List Str → Str
  | [] => cur
  | s :: rest => joinChain (cur ++ '/' :: s) rest

theorem joinChain_eq_append (cur : Str) (l : List Str) :
    joinChain cur l = cur ++ restJoin l := by
  induction l generalizing cur with
  | nil => simp [joinChain, restJoin]
  | cons s rest ih =>
    simp only [joinChain, restJoin]
    rw [ih]
    simp

theorem restJoin_head (l : List Str) :
    restJoin l = [] ∨ (restJoin l).head? = some '/' := by
  cases l with
  | nil => exact Or.inl rfl
  | cons s rest => exact Or.inr rfl

theorem seg_prefix_inj {s1 s2 r1 r2 : Str} (h1 : '/' ∉ s1) (h2 : '/' ∉ s2)
    (hr1 : r1 = [] ∨ r1.head? = some '/') (hr2 : r2 = [] ∨ r2.head? = some '/')
    (h : s1 ++ r1 = s2 ++ r2) : s1 = s2 ∧ r1 = r2 := by
  induction s1 generalizing s2 with
  | nil =>
    cases s2 with
    | nil => exact ⟨rfl, h⟩
    | cons c s2 =>
      exfalso
      simp only [List.nil_append] at h
      rcases hr1 with hr1 | hr1
      · rw [hr1] at h
        exact List.noConfusion h.symm
      · rw [h] at hr1
        simp at hr1
        apply h2
        rw [← hr1]
        exact List.mem_cons_self c s2
  | cons c1 s1 ih =>
    cases s2 with
    | nil =>
      exfalso
      simp only [List.nil_append] at h
      rcases hr2 with hr2 | hr2
      · rw [hr2] at h
        exact List.noConfusion h
      · rw [← h] at hr2
        simp at hr2
        apply h1
        rw [← hr2]
        exact List.mem_cons_self c1 s1
    | cons c2 s2 =>
      simp only [List.cons_append, List.cons.injEq] at h
      obtain ⟨hc, hrest⟩ := h
      have h1t : '/' ∉ s1 := fun hm => h1 (List.mem_cons_of_mem c1 hm)
      have h2t : '/' ∉ s2 := fun hm => h2 (List.mem_cons_of_mem c2 hm)
      obtain ⟨hs, hr⟩ := ih h1t h2t hrest
      exact ⟨by rw [hc, hs], hr⟩

theorem restJoin_inj {l1 l2 : List Str} (h1 : ∀ s ∈ l1, '/' ∉ s)
    (h2 : ∀ s ∈ l2, '/' ∉ s) (h : restJoin l1 = restJoin l2) : l1 = l2 := by
  induction l1 generalizing l2 with
  | nil =>
    cases l2 with
    | nil => rfl
    | cons s rest =>
      exfalso
      simp only [restJoin] at h
      exact List.noConfusion h
  | cons s1 t1 ih =>
    cases l2 with
    | nil =>
      exfalso
      simp only [restJoin] at h
      exact List.noConfusion h
    | cons s2 t2 =>
      simp only [restJoin, List.cons_append, List.cons.injEq] at h
      obtain ⟨hs, hrest⟩ := seg_prefix_inj (h1 s1 (List.mem_cons_self s1 t1))
        (h2 s2 (List.mem_cons_self s2 t2)) (restJoin_head t1) (restJoin_head t2) h.2
      rw [hs, ih (fun s hm => h1 s (List.mem_cons_of_mem s1 hm))
        (fun s hm => h2 s (List.mem_cons_of_mem s2 hm)) hrest]

theorem joinChain_inj {cur : Str} {l1 l2 : List Str} (h1 : ∀ s ∈ l1, '/' ∉ s)
    (h2 : ∀ s ∈ l2, '/' ∉ s) (h : joinChain cur l1 = joinChain cur l2) : l1 = l2 := by
  rw [joinChain_eq_append, joinChain_eq_append] at h
  exact restJoin_inj h1 h2 (List.append_cancel_left h)

theorem joinChain_length_lt (cur : Str) (l : List Str) (hne : l ≠ []) :
    cur.length < (joinChain cur l).length := by
  induction l generalizing cur with
  | nil => exact absurd rfl hne
  | cons s rest ih =>
    simp only [joinChain]
    by_cases hr : rest = []
    · subst hr
      simp only [joinChain]
      rw [childPath_length]
      omega
    · have := ih (cur ++ '/' :: s) hr
      rw [childPath_length] at this
      omega

theorem chainKeys_mem_iff (L : List Str) (cur k : Str) :
    k ∈ chainKeys cur L ↔ ∃ l, l ≠ [] ∧ l <+: L ∧ k = joinChain cur l := by
  induction L generalizing cur with
  | nil =>
    simp only [chainKeys, List.not_mem_nil, false_iff]
    rintro ⟨l, hne, hpre, hk⟩
    exact hne (List.prefix_nil.mp hpre)
  | cons s rest ih =>
    simp only [chainKeys, List.mem_cons]
    constructor
    · intro h
      rcases h with h | h
      · exact ⟨[s], by simp, by simp [List.cons_prefix_cons], by simp [joinChain, h]⟩
      · obtain ⟨l', hne, hpre, hk⟩ := (ih (cur ++ '/' :: s)).mp h
        exact ⟨s :: l', by simp, by simp [List.cons_prefix_cons, hpre],
          by simp [joinChain, hk]⟩
    · rintro ⟨l, hne, hpre, hk⟩
      cases l with
      | nil => exact absurd rfl hne
      | cons s' l' =>
        obtain ⟨hs, hpre'⟩ := List.cons_prefix_cons.mp hpre
        subst hs
        by_cases hl : l' = []
        · left
          rw [hk, hl]
          simp [joinChain]
        · right
          apply (ih (cur ++ '/' :: s')).mpr
          refine ⟨l', hl, hpre', ?_⟩
          rw [hk]
          rfl

theorem entryDirFlag_spec (L : List Str) (cur : Str) (b : Bool) (l : List Str)
    (hL : ∀ s ∈ L, '/' ∉ s) (hne : l ≠ []) (hpre : l <+: L) :
    entryDirFlag cur L b (joinChain cur l) = (!decide (l.length = L.length) || b) := by
  induction L generalizing cur l with
  | nil => exact absurd (List.prefix_nil.mp hpre) hne
  | cons s rest ih =>
    cases l with
    | nil => exact absurd rfl hne
    | cons s' l' =>
      obtain ⟨hs, hpre'⟩ := List.cons_prefix_cons.mp hpre
      subst hs
      simp only [entryDirFlag, joinChain]
      by_cases hl : l' = []
      · subst hl
        simp only [joinChain, if_pos rfl]
        simp only [List.length_cons, List.length_nil]
        cases rest with
        | nil => simp
        | cons t ts => simp
      · have hkne : joinChain (cur ++ '/' :: s') l' ≠ cur ++ '/' :: s' := by
          intro hh
          have := joinChain_length_lt (cur ++ '/' :: s') l' hl
          rw [hh] at this
          omega
        rw [if_neg hkne]
        rw [ih (cur ++ '/' :: s') l' (fun s2 hm => hL s2 (List.mem_cons_of_mem s' hm))
          hl hpre']
        simp only [List.length_cons]
        congr 1
        simp


theorem entryAddsChild_domain {cur : Str} {L : List Str} {k c : Str}
    (h : entryAddsChild cur L k c) : k = cur ∨ k ∈ chainKeys cur L := by
  induction L generalizing cur with
  | nil => exact absurd h (by simp [entryAddsChild])
  | cons s rest ih =>
    simp only [entryAddsChild] at h
    rcases h with ⟨hk, _⟩ | h
    · exact Or.inl hk
    · rcases ih h with h2 | h2
      · exact Or.inr (by simp [chainKeys, h2])
      · exact Or.inr (by simp only [chainKeys]; exact List.mem_cons_of_mem _ h2)

theorem dirFlag_agree {L1 L2 : List Str} {b1 b2 : Bool} {root k : Str}
    (hL1 : ∀ s ∈ L1, '/' ∉ s) (hL2 : ∀ s ∈ L2, '/' ∉ s) (hne : L1 ≠ L2)
    (hp1 : b1 = false → ¬ (L1 <+: L2)) (hp2 : b2 = false → ¬ (L2 <+: L1))
    (hk1 : k ∈ chainKeys root L1) (hk2 : k ∈ chainKeys root L2) :
    entryDirFlag root L1 b1 k = entryDirFlag root L2 b2 k := by
  obtain ⟨l1, hl1ne, hl1pre, hk1j⟩ := (chainKeys_mem_iff L1 root k).mp hk1
  obtain ⟨l2, hl2ne, hl2pre, hk2j⟩ := (chainKeys_mem_iff L2 root k).mp hk2
  have hslash1 : ∀ s ∈ l1, '/' ∉ s := fun s hm => hL1 s (hl1pre.subset hm)
  have hslash2 : ∀ s ∈ l2, '/' ∉ s := fun s hm => hL2 s (hl2pre.subset hm)
  have hll : l1 = l2 := joinChain_inj hslash1 hslash2 (by rw [← hk1j, ← hk2j])
  subst hll
  rw [hk1j, entryDirFlag_spec L1 root b1 l1 hL1 hl1ne hl1pre,
    entryDirFlag_spec L2 root b2 l1 hL2 hl1ne hl2pre]
  by_cases hf1 : l1.length = L1.length
  · have heq1 : l1 = L1 := hl1pre.eq_of_length hf1
    by_cases hf2 : l1.length = L2.length
    · exfalso
      apply hne
      rw [← heq1, hl2pre.eq_of_length hf2]
    · have hb1 : b1 = true := by
        by_contra hb
        have hb' : b1 = false := by
          cases b1
          · rfl
          · exact absurd rfl hb
        exact hp1 hb' (heq1 ▸ hl2pre)
      rw [decide_eq_true hf1, decide_eq_false hf2, hb1]
      simp
  · by_cases hf2 : l1.length = L2.length
    · have heq2 : l1 = L2 := hl2pre.eq_of_length hf2
      have hb2 : b2 = true := by
        by_contra hb
        have hb' : b2 = false := by
          cases b2
          · rfl
          · exact absurd rfl hb
        exact hp2 hb' (heq2 ▸ hl1pre)
      rw [decide_eq_false hf1, decide_eq_true hf2, hb2]
      simp
    · simp [hf1, hf2]

/-- Compatibility of two listing entries: distinct paths, and neither is a
blob whose path is a segment-wise prefix of the other's path. Unique paths
alone are not enough for order independence (see the counterexample below). -/
def entryCompat (e1 e2 : TreeNode) : Prop :=
  splitOnSlash e1.path ≠ splitOnSlash e2.path ∧
  (e1.type ≠ strOf "tree" → ¬ (splitOnSlash e1.path <+: splitOnSlash e2.path)) ∧
  (e2.type ≠ strOf "tree" → ¬ (splitOnSlash e2.path <+: splitOnSlash e1.path))

instance : DecidableRel entryCompat := fun e1 e2 => by
  unfold entryCompat
  infer_instance

theorem entryCompat_symm {e1 e2 : TreeNode} (h : entryCompat e1 e2) :
    entryCompat e2 e1 :=
  ⟨fun hh => h.1 hh.symm, h.2.2, h.2.1⟩

/-- Processing two compatible entries in either order yields equivalent maps. -/
theorem processEntry_comm (root : Str) (m : TreeMap) (e1 e2 : TreeNode)
    (hroot : (alookup m root).isSome) (hc : entryCompat e1 e2) :
    MapEquiv (processEntry root (processEntry root m e1) e2)
             (processEntry root (processEntry root m e2) e1) := by
  have hL1 := splitOnSlash_no_slash e1.path
  have hL2 := splitOnSlash_no_slash e2.path
  have hb1 : decide (e1.type = strOf "tree") = false →
      ¬ (splitOnSlash e1.path <+: splitOnSlash e2.path) :=
    fun hb => hc.2.1 (of_decide_eq_false hb)
  have hb2 : decide (e2.type = strOf "tree") = false →
      ¬ (splitOnSlash e2.path <+: splitOnSlash e1.path) :=
    fun hb => hc.2.2 (of_decide_eq_false hb)
  obtain ⟨A1iff, A1val⟩ := insertSegs_effect (splitOnSlash e1.path) m root
    (decide (e1.type = strOf "tree")) hroot
  have hrootA : (alookup (insertSegs m root (splitOnSlash e1.path)
      (decide (e1.type = strOf "tree"))) root).isSome :=
    (A1iff root).mpr (Or.inl hroot)
  obtain ⟨A2iff, A2val⟩ := insertSegs_effect (splitOnSlash e2.path)
    (insertSegs m root (splitOnSlash e1.path) (decide (e1.type = strOf "tree")))
    root (decide (e2.type = strOf "tree")) hrootA
  obtain ⟨B1iff, B1val⟩ := insertSegs_effect (splitOnSlash e2.path) m root
    (decide (e2.type = strOf "tree")) hroot
  have hrootB : (alookup (insertSegs m root (splitOnSlash e2.path)
      (decide (e2.type = strOf "tree"))) root).isSome :=
    (B1iff root).mpr (Or.inl hroot)
  obtain ⟨B2iff, B2val⟩ := insertSegs_effect (splitOnSlash e1.path)
    (insertSegs m root (splitOnSlash e2.path) (decide (e2.type = strOf "tree")))
    root (decide (e1.type = strOf "tree")) hrootB
  simp only [processEntry]
  constructor
  · intro k
    rw [A2iff, B2iff, A1iff, B1iff]
    tauto
  · intro k ndA ndB hA hB
    cases hm : alookup m k with
    | some nd =>
      have hA1s : (alookup (insertSegs m root (splitOnSlash e1.path)
          (decide (e1.type = strOf "tree"))) k).isSome :=
        (A1iff k).mpr (Or.inl (by simp [hm]))
      obtain ⟨ndA1, hA1⟩ := Option.isSome_iff_exists.mp hA1s
      obtain ⟨dA1, cA1⟩ := (A1val k ndA1 hA1).1 nd hm
      obtain ⟨dA2, cA2⟩ := (A2val k ndA hA).1 ndA1 hA1
      have hB1s : (alookup (insertSegs m root (splitOnSlash e2.path)
          (decide (e2.type = strOf "tree"))) k).isSome :=
        (B1iff k).mpr (Or.inl (by simp [hm]))
      obtain ⟨ndB1, hB1⟩ := Option.isSome_iff_exists.mp hB1s
      obtain ⟨dB1, cB1⟩ := (B1val k ndB1 hB1).1 nd hm
      obtain ⟨dB2, cB2⟩ := (B2val k ndB hB).1 ndB1 hB1
      refine ⟨by rw [dA2, dA1, dB2, dB1], fun c => ?_⟩
      rw [cA2 c, cA1 c, cB2 c, cB1 c]
      tauto
    | none =>
      have hkroot : k ≠ root := by
        intro hh
        rw [hh] at hm
        rw [hm] at hroot
        simp at hroot
      have hB2s : (alookup (insertSegs (insertSegs m root (splitOnSlash e2.path)
          (decide (e2.type = strOf "tree"))) root (splitOnSlash e1.path)
          (decide (e1.type = strOf "tree"))) k).isSome := by simp [hB]
      cases hA1k : alookup (insertSegs m root (splitOnSlash e1.path)
          (decide (e1.type = strOf "tree"))) k with
      | some ndA1 =>
        have hch1 : k ∈ chainKeys root (splitOnSlash e1.path) := by
          rcases (A1iff k).mp (by simp [hA1k]) with h | h
          · rw [hm] at h
            simp at h
          · exact h
        obtain ⟨dA1, cA1⟩ := (A1val k ndA1 hA1k).2 hm
        obtain ⟨dA2, cA2⟩ := (A2val k ndA hA).1 ndA1 hA1k
        cases hB1k : alookup (insertSegs m root (splitOnSlash e2.path)
            (decide (e2.type = strOf "tree"))) k with
        | some ndB1 =>
          have hch2 : k ∈ chainKeys root (splitOnSlash e2.path) := by
            rcases (B1iff k).mp (by simp [hB1k]) with h | h
            · rw [hm] at h
              simp at h
            · exact h
          obtain ⟨dB1, cB1⟩ := (B1val k ndB1 hB1k).2 hm
          obtain ⟨dB2, cB2⟩ := (B2val k ndB hB).1 ndB1 hB1k
          refine ⟨?_, fun c => ?_⟩
          · rw [dA2, dA1, dB2, dB1]
            exact dirFlag_agree hL1 hL2 hc.1 hb1 hb2 hch1 hch2
          · rw [cA2 c, cA1 c, cB2 c, cB1 c]
            tauto
        | none =>
          have hnch2 : k ∉ chainKeys root (splitOnSlash e2.path) := by
            intro hh
            have hs : (alookup (insertSegs m root (splitOnSlash e2.path)
                (decide (e2.type = strOf "tree"))) k).isSome :=
              (B1iff k).mpr (Or.inr hh)
            rw [hB1k] at hs
            simp at hs
          obtain ⟨dB2, cB2⟩ := (B2val k ndB hB).2 hB1k
          refine ⟨?_, fun c => ?_⟩
          · rw [dA2, dA1, dB2]
          · rw [cA2 c, cA1 c, cB2 c]
            constructor
            · rintro (h | h)
              · exact h
              · exfalso
                rcases entryAddsChild_domain h with h2 | h2
                · exact hkroot h2
                · exact hnch2 h2
            · exact fun h => Or.inl h
      | none =>
        have hnch1 : k ∉ chainKeys root (splitOnSlash e1.path) := by
          intro hh
          have hs : (alookup (insertSegs m root (splitOnSlash e1.path)
              (decide (e1.type = strOf "tree"))) k).isSome :=
            (A1iff k).mpr (Or.inr hh)
          rw [hA1k] at hs
          simp at hs
        obtain ⟨dA2, cA2⟩ := (A2val k ndA hA).2 hA1k
        cases hB1k : alookup (insertSegs m root (splitOnSlash e2.path)
            (decide (e2.type = strOf "tree"))) k with
        | some ndB1 =>
          obtain ⟨dB1, cB1⟩ := (B1val k ndB1 hB1k).2 hm
          obtain ⟨dB2, cB2⟩ := (B2val k ndB hB).1 ndB1 hB1k
          refine ⟨?_, fun c => ?_⟩
          · rw [dA2, dB2, dB1]
          · rw [cA2 c, cB2 c, cB1 c]
            constructor
            · exact fun h => Or.inl h
            · rintro (h | h)
              · exact h
              · exfalso
                rcases entryAddsChild_domain h with h2 | h2
                · exact hkroot h2
                · exact hnch1 h2
        | none =>
          exfalso
          rcases (B2iff k).mp hB2s with h | h
          · rw [hB1k] at h
            simp at h
          · exact hnch1 h

theorem alookup_of_mem {m : TreeMap} (hn : KeysNodup m) {k : Str} {nd : NodeData}
    (hmem : (k, nd) ∈ m) : alookup m k = some nd := by
  induction m with
  | nil => simp at hmem
  | cons kv rest ih =>
    obtain ⟨k0, v0⟩ := kv
    simp only [KeysNodup, List.map_cons, List.nodup_cons] at hn
    rcases List.mem_cons.mp hmem with h | h
    · injection h with h1 h2
      subst h1
      subst h2
      simp [alookup]
    · by_cases hk : k0 = k
      · exfalso
        subst hk
        exact hn.1 (List.mem_map_of_mem Prod.fst h)
      · simp only [alookup, if_neg hk]
        exact ih hn.2 h

/-- The insertion-ordered list of (key, isDir) pairs of the map. -/
def keyFlags (m : TreeMap) : List (Str × Bool) := m.map (fun kv => (kv.1, kv.2.isDir))

theorem keyFlags_map_fst (m : TreeMap) : (keyFlags m).map Prod.fst = m.map Prod.fst := by
  simp [keyFlags, List.map_map, Function.comp]

theorem keyFlags_nodup {m : TreeMap} (hn : KeysNodup m) : (keyFlags m).Nodup := by
  have h : ((keyFlags m).map Prod.fst).Nodup := by
    rw [keyFlags_map_fst]
    exact hn
  exact List.Nodup.of_map _ h

theorem keyFlags_mem {m : TreeMap} (hn : KeysNodup m) (k : Str) (b : Bool) :
    (k, b) ∈ keyFlags m ↔ ∃ nd, alookup m k = some nd ∧ nd.isDir = b := by
  simp only [keyFlags, List.mem_map]
  constructor
  · rintro ⟨⟨k0, nd0⟩, hmem, heq⟩
    injection heq with h1 h2
    subst h1
    exact ⟨nd0, alookup_of_mem hn hmem, h2⟩
  · rintro ⟨nd, hl, hb⟩
    exact ⟨(k, nd), alookup_some_mem hl, by simp [hb]⟩

theorem keyFlags_perm {m1 m2 : TreeMap} (h1 : KeysNodup m1) (h2 : KeysNodup m2)
    (he : MapEquiv m1 m2) : (keyFlags m1).Perm (keyFlags m2) := by
  rw [List.perm_ext_iff_of_nodup (keyFlags_nodup h1) (keyFlags_nodup h2)]
  rintro ⟨k, b⟩
  rw [keyFlags_mem h1, keyFlags_mem h2]
  constructor
  · rintro ⟨nd, hl, hb⟩
    have hs : (alookup m2 k).isSome := (he.1 k).mp (by simp [hl])
    obtain ⟨nd2, hl2⟩ := Option.isSome_iff_exists.mp hs
    exact ⟨nd2, hl2, by rw [← (he.2 k nd nd2 hl hl2).1, hb]⟩
  · rintro ⟨nd, hl, hb⟩
    have hs : (alookup m1 k).isSome := (he.1 k).mpr (by simp [hl])
    obtain ⟨nd1, hl1⟩ := Option.isSome_iff_exists.mp hs
    exact ⟨nd1, hl1, by rw [(he.2 k nd1 nd hl1 hl).1, hb]⟩

theorem length_eq_of_equiv {m1 m2 : TreeMap} (h1 : KeysNodup m1) (h2 : KeysNodup m2)
    (he : MapEquiv m1 m2) : m1.length = m2.length := by
  have h := (keyFlags_perm h1 h2 he).length_eq
  simpa [keyFlags] using h

theorem counts_eq_of_equiv {m1 m2 : TreeMap} (h1 : KeysNodup m1) (h2 : KeysNodup m2)
    (he : MapEquiv m1 m2) :
    dirCount m1 = dirCount m2 ∧ fileCount m1 = fileCount m2 := by
  have hperm := keyFlags_perm h1 h2 he
  have hd : (m1.filter fun kv => kv.2.isDir).length =
      (m2.filter fun kv => kv.2.isDir).length := by
    rw [← List.countP_eq_length_filter, ← List.countP_eq_length_filter]
    have h := hperm.countP_eq (fun kb => kb.2)
    simpa [keyFlags, List.countP_map] using h
  have hf : (m1.filter fun kv => !kv.2.isDir).length =
      (m2.filter fun kv => !kv.2.isDir).length := by
    rw [← List.countP_eq_length_filter, ← List.countP_eq_length_filter]
    have h := hperm.countP_eq (fun kb => !kb.2)
    simpa [keyFlags, List.countP_map] using h
  exact ⟨by simp [dirCount, hd], by simp [fileCount, hf]⟩

theorem sortJS_eq_of_perm {l1 l2 : List Str} (h : l1.Perm l2) : sortJS l1 = sortJS l2 :=
  List.eq_of_perm_of_sorted
    ((List.perm_insertionSort jsLe l1).trans (h.trans (List.perm_insertionSort jsLe l2).symm))
    (List.sorted_insertionSort jsLe l1) (List.sorted_insertionSort jsLe l2)

theorem nodeOf_sort_eq {m1 m2 : TreeMap} (he : MapEquiv m1 m2)
    (hn1 : ChildrenNodup m1) (hn2 : ChildrenNodup m2) (k : Str) :
    sortJS (nodeOf m1 k).children = sortJS (nodeOf m2 k).children ∧
    (nodeOf m1 k).isDir = (nodeOf m2 k).isDir := by
  cases h1 : alookup m1 k with
  | none =>
    cases h2 : alookup m2 k with
    | none => simp [nodeOf, h1, h2]
    | some nd2 =>
      exfalso
      have hs := (he.1 k).mpr (by simp [h2])
      rw [h1] at hs
      simp at hs
  | some nd1 =>
    cases h2 : alookup m2 k with
    | none =>
      exfalso
      have hs := (he.1 k).mp (by simp [h1])
      rw [h2] at hs
      simp at hs
    | some nd2 =>
      obtain ⟨hdir, hch⟩ := he.2 k nd1 nd2 h1 h2
      refine ⟨?_, by simp [nodeOf, h1, h2, hdir]⟩
      have hperm : nd1.children.Perm nd2.children :=
        (List.perm_ext_iff_of_nodup (hn1 k nd1 h1) (hn2 k nd2 h2)).mpr hch
      simp only [nodeOf, h1, h2, Option.getD_some]
      exact sortJS_eq_of_perm hperm

theorem renderKids_congr {m1 m2 : TreeMap} (he : MapEquiv m1 m2)
    (hn1 : ChildrenNodup m1) (hn2 : ChildrenNodup m2) (fuel : Nat)
    (ih : ∀ p pr pc, renderGo m1 fuel p pr pc = renderGo m2 fuel p pr pc) :
    ∀ (cs : List Str) (path pre : Str) (i total : Nat) (proc : List Str),
    renderKids (fun p pr pc => renderGo m1 fuel p pr pc) m1 path pre cs i total proc =
    renderKids (fun p pr pc => renderGo m2 fuel p pr pc) m2 path pre cs i total proc := by
  intro cs
  induction cs with
  | nil =>
    intro path pre i total proc
    rfl
  | cons c rest ihc =>
    intro path pre i total proc
    simp only [renderKids]
    have hsome : (alookup m1 (path ++ '/' :: c)).isSome =
        (alookup m2 (path ++ '/' :: c)).isSome := he.isSome_eq _
    by_cases hp : (alookup m1 (path ++ '/' :: c)).isSome
    · have hp2 : (alookup m2 (path ++ '/' :: c)).isSome := by
        rw [← hsome]
        exact hp
      rw [if_pos hp, if_pos hp2]
      have hd := (nodeOf_sort_eq he hn1 hn2 (path ++ '/' :: c)).2
      simp only [ihc]
      simp only [ih]
      simp only [hd]
    · have hp2 : ¬ (alookup m2 (path ++ '/' :: c)).isSome := by
        rw [← hsome]
        exact hp
      rw [if_neg hp, if_neg hp2]
      simp only [ihc]

theorem renderGo_congr {m1 m2 : TreeMap} (he : MapEquiv m1 m2)
    (hn1 : ChildrenNodup m1) (hn2 : ChildrenNodup m2) :
    ∀ (fuel : Nat) (path pre : Str) (proc : List Str),
    renderGo m1 fuel path pre proc = renderGo m2 fuel path pre proc := by
  intro fuel
  induction fuel with
  | zero =>
    intro path pre proc
    rfl
  | succ fuel ih =>
    intro path pre proc
    simp only [renderGo]
    by_cases hmem : path ∈ proc
    · rw [if_pos hmem, if_pos hmem]
    · rw [if_neg hmem, if_neg hmem]
      obtain ⟨hsort, _⟩ := nodeOf_sort_eq he hn1 hn2 path
      rw [hsort]
      exact renderKids_congr he hn1 hn2 fuel ih _ _ _ _ _ _

theorem processEntry_root (root : Str) (m : TreeMap) (e : TreeNode)
    (h : (alookup m root).isSome) : (alookup (processEntry root m e) root).isSome :=
  ((insertSegs_effect (splitOnSlash e.path) m root (decide (e.type = strOf "tree")) h).1
    root).mpr (Or.inl h)

theorem foldl_perm_equiv (root : Str) {L1 L2 : List TreeNode} (hperm : L1.Perm L2) :
    ∀ m : TreeMap, (alookup m root).isSome → L1.Pairwise entryCompat →
    MapEquiv (L1.foldl (processEntry root) m) (L2.foldl (processEntry root) m) := by
  induction hperm with
  | nil =>
    intro m _ _
    exact MapEquiv.refl _
  | cons e hperm ih =>
    intro m hroot hpw
    simp only [List.foldl_cons]
    exact ih _ (processEntry_root root m e hroot) (List.Pairwise.of_cons hpw)
  | swap x y l =>
    intro m hroot hpw
    simp only [List.foldl_cons]
    have hyx : entryCompat y x := (List.pairwise_cons.mp hpw).1 x (List.mem_cons_self _ _)
    exact foldl_processEntry_congr root l (processEntry_comm root m y x hroot hyx)
  | trans h1 h2 ih1 ih2 =>
    intro m hroot hpw
    have hpw2 := (h1.pairwise_iff (fun h => entryCompat_symm h)).mp hpw
    exact (ih1 m hroot hpw).trans (ih2 m hroot hpw2)

theorem buildTreeMap_perm_equiv (root : Str) {L1 L2 : List TreeNode}
    (hperm : L1.Perm L2) (hpw : L1.Pairwise entryCompat) :
    MapEquiv (buildTreeMap L1 root) (buildTreeMap L2 root) := by
  apply foldl_perm_equiv root hperm
  · simp [alookup]
  · exact hpw

/-- C1. Order independence of the construction, in its correct form: for two
listings that are permutations of each other and pairwise compatible (distinct
segment paths, and no blob entry's path is a segment-wise prefix of another
entry's path), the two maps have the same key set, the same isDir flag at
every key, the same children set at every key, and buildTree produces the
identical output string. The claim's weaker hypothesis — unique paths alone —
does not suffice (see the counterexample). -/
theorem buildTree_perm (L1 L2 : List TreeNode) (hperm : L1.Perm L2)
    (hpw : L1.Pairwise entryCompat) :
    (∀ root k, (alookup (buildTreeMap L1 root) k).isSome ↔
      (alookup (buildTreeMap L2 root) k).isSome) ∧
    (∀ root k nd1 nd2, alookup (buildTreeMap L1 root) k = some nd1 →
      alookup (buildTreeMap L2 root) k = some nd2 →
      nd1.isDir = nd2.isDir ∧ (∀ c, c ∈ nd1.children ↔ c ∈ nd2.children)) ∧
    (∀ root, buildTreeCore L1 root = buildTreeCore L2 root) ∧
    (∀ owner repo branch, buildTree L1 owner repo branch = buildTree L2 owner repo branch) := by
  have he : ∀ root, MapEquiv (buildTreeMap L1 root) (buildTreeMap L2 root) :=
    fun root => buildTreeMap_perm_equiv root hperm hpw
  have hcore : ∀ root, buildTreeCore L1 root = buildTreeCore L2 root := by
    intro root
    have hwf1 := buildTreeMap_wf L1 root
    have hwf2 := buildTreeMap_wf L2 root
    have hlen : (buildTreeMap L1 root).length = (buildTreeMap L2 root).length :=
      length_eq_of_equiv hwf1.1 hwf2.1 (he root)
    have hcnt := counts_eq_of_equiv hwf1.1 hwf2.1 (he root)
    have hrender := renderGo_congr (he root) hwf1.2.2.1 hwf2.2.2.1
      ((buildTreeMap L2 root).length + 1) root [] []
    simp only [buildTreeCore]
    rw [hlen, hrender, hcnt.1, hcnt.2]
  exact ⟨fun root k => (he root).1 k,
    fun root k nd1 nd2 h1 h2 => (he root).2 k nd1 nd2 h1 h2,
    hcore,
    fun owner repo branch => hcore (rootLabel owner repo branch)⟩

/-- The claim as frozen fails: the two blob entries with the distinct paths
"a" and "a/b" give, in the two orders, different isDir flags on node R/a and
different output strings — processing "a/b" first creates node a as a
directory, processing "a" first creates it as a file and the flag is never
updated afterwards. -/
theorem buildTree_perm_counterexample :
    (([⟨strOf "a", strOf "blob"⟩, ⟨strOf "a/b", strOf "blob"⟩] : List TreeNode).map
      (fun e => e.path)).Nodup ∧
    ([⟨strOf "a", strOf "blob"⟩, ⟨strOf "a/b", strOf "blob"⟩] : List TreeNode).Perm
      [⟨strOf "a/b", strOf "blob"⟩, ⟨strOf "a", strOf "blob"⟩] ∧
    buildTreeCore [⟨strOf "a", strOf "blob"⟩, ⟨strOf "a/b", strOf "blob"⟩] (strOf "R") ≠
      buildTreeCore [⟨strOf "a/b", strOf "blob"⟩, ⟨strOf "a", strOf "blob"⟩] (strOf "R") := by
  decide

theorem buildTree_perm_witness :
    ([⟨strOf "x", strOf "blob"⟩, ⟨strOf "y", strOf "tree"⟩] : List TreeNode).Perm
      [⟨strOf "y", strOf "tree"⟩, ⟨strOf "x", strOf "blob"⟩] ∧
    ([⟨strOf "x", strOf "blob"⟩, ⟨strOf "y", strOf "tree"⟩] : List TreeNode).Pairwise
      entryCompat ∧
    buildTreeCore [⟨strOf "x", strOf "blob"⟩, ⟨strOf "y", strOf "tree"⟩] (strOf "R") =
      buildTreeCore [⟨strOf "y", strOf "tree"⟩, ⟨strOf "x", strOf "blob"⟩] (strOf "R") :=
  ⟨by decide, by decide,
    (buildTree_perm _ _ (by decide) (by decide)).2.2.1 (strOf "R")⟩
